import Mathlib

/-!
Token decoding and resource bundle parsing of whisper.tflite `minimal.cc`

A shallow embedding of the hand-written logic of `src/tflite_example/minimal.cc`:

* `removeExtraSpaces` (lines 28-46) and the token decoding loop of `main`
  (lines 196-208);
* the walk over the embedded bundle `tflt_vocab_mel_bin` (lines 56-100);
* the format checks, the conversion to mono and the padding of the audio clip
  (lines 103-150), and the statuses `main` returns.

A `std::string` of the decoder is a `List Char`; the bundle is a list of bytes,
each byte a natural number below 256; a `float` sample is the rational number it
stands for.
-/

namespace Minimal

/-! ## Text post-processing (`removeExtraSpaces`) -/

/-- The `for (char c : input)` loop of `removeExtraSpaces`: `result` and `space` are the two
locals of the function, the first argument is what is left of `input`. -/
def removeExtraSpacesLoop : List Char → List Char → Bool → List Char
  | [], result, _ => result
  | c :: rest, result, space =>
    if c = ' ' then
      removeExtraSpacesLoop rest (if !space then result ++ [c] else result) true
    else
      removeExtraSpacesLoop rest (result ++ [c]) false

/-- The function `std::string removeExtraSpaces(const std::string& input)`. -/
def removeExtraSpaces (input : List Char) : List Char :=
  removeExtraSpacesLoop input [] false

/-- The wording of the specification, "each maximal run of one or more `' '` replaced by a
single `' '`": the input is cut into its maximal runs of adjacent spaces (every other
character is a piece of its own), each piece that holds a space becomes one space, and the
pieces are put together again. -/
def collapseSpaceRuns (input : List Char) : List Char :=
  ((input.splitBy (fun a b => a == ' ' && b == ' ')).map
    (fun run => if ' ' ∈ run then [' '] else run)).flatten

/-! ## Token decoding (`main`, lines 196-208) -/

/-- The loop `for (int i = 0; i < output_size; i++)` over the output tensor. The first
argument is the sentinel `g_vocab.token_eot`, the second the lookup `whisper_token_to_str`
(declared in `whisper.h`), the list is `output_int[i .. output_size)` and `text` is the
accumulator. -/
def decodeLoop (token_eot : Int) (whisper_token_to_str : Int → List Char) :
    List Int → List Char → List Char
  | [], text => text
  | id :: rest, text =>
    if id = token_eot then
      text
    else if id < token_eot then
      decodeLoop token_eot whisper_token_to_str rest (text ++ whisper_token_to_str id)
    else
      decodeLoop token_eot whisper_token_to_str rest text

/-- The text printed by `main`: the loop started from `text = ""`, then
`text = removeExtraSpaces(text)`. -/
def decode (token_eot : Int) (whisper_token_to_str : Int → List Char) (ids : List Int) :
    List Char :=
  removeExtraSpaces (decodeLoop token_eot whisper_token_to_str ids [])

/-- A vocabulary in which id 5 is "Hello" and id 9 is "world"; every other id has the empty
token. -/
def helloWorldVocab (id : Int) : List Char :=
  if id = 5 then "Hello".toList else if id = 9 then "world".toList else []

/-! ## The resource bundle (`main`, lines 56-100)

The array `tflt_vocab_mel_bin` is a list of bytes. The code walks it with a bare pointer and
never compares the pointer with the size of the array; the model does the comparison at
every `memcpy` and stops with `Outcome.readPastEnd` at the first read that is not inside
the array, where the behaviour of the C++ program is undefined. -/

/-- Modelled from the spec: `struct whisper_filters` is declared in `whisper.h`; its fields
are the `mel_bands : u32`, `fft_bins : u32` and `weights : f32[]` of the specification. A
`float` is kept as the 32-bit pattern that `memcpy` stores in it. -/
structure whisper_filters where
  n_mel : Nat
  n_fft : Nat
  data : List Nat
deriving DecidableEq

/-- Modelled from the spec: `struct whisper_vocab` is declared in `whisper.h`; `n_vocab` is the
`size : i32` of the specification and `id_to_token` the map from id to token, a `std::map`
kept as the list of its entries in increasing order of the key. -/
structure whisper_vocab where
  n_vocab : Int
  id_to_token : List (Int × List Nat)
deriving DecidableEq

/-- The assignment `m[k] = v` on a `std::map<int, std::string>`: the entry of `k` is
replaced, or inserted at its place in the order of the keys. -/
def mapAssign : List (Int × List Nat) → Int → List Nat → List (Int × List Nat)
  | [], k, v => [(k, v)]
  | (k', v') :: m, k, v =>
    if k < k' then (k, v) :: (k', v') :: m
    else if k = k' then (k, v) :: m
    else (k', v') :: mapAssign m k v

/-- The lookup `m.find(k)`: the token stored for `k`, if there is one. -/
def mapFind (m : List (Int × List Nat)) (k : Int) : Option (List Nat) :=
  (m.find? (fun e => e.1 = k)).map (fun e => e.2)

/-- The value of a little-endian sequence of bytes, as `memcpy` into an unsigned integer gives
it on a little-endian machine. -/
def leValue : List Nat → Nat
  | [] => 0
  | b :: bs => b + 256 * leValue bs

/-- The value of a 32-bit pattern read as `int32_t`. -/
def toInt32 (v : Nat) : Int :=
  if v < 2 ^ 31 then (v : Int) else (v : Int) - 2 ^ 32

/-- The bytes `memcpy(dst, ptr, len)` reads out of the bundle, `ptr` being an offset from the
start of the array: `none` when they are not all inside the array. -/
def readBytes (bin : List Nat) (ptr len : Nat) : Option (List Nat) :=
  if ptr + len ≤ bin.length then some ((bin.drop ptr).take len) else none

/-- The `count` 32-bit values that a `memcpy` of `4 * count` bytes stores in `filters.data`. -/
def floatsOf : Nat → List Nat → List Nat
  | 0, _ => []
  | count + 1, bytes => leValue (bytes.take 4) :: floatsOf count (bytes.drop 4)

/-- The string `std::string(word)`: the characters of the buffer before its first zero byte. -/
def cString (word : List Nat) : List Nat :=
  word.takeWhile (fun c => c ≠ 0)

/-- How the walk over the bundle ends. -/
inductive Outcome where
  /-- The branch `printf("Invalid vocab file (bad magic)"); return 0;`. -/
  | badMagic : Outcome
  /-- A `memcpy` reads the `len` bytes at offset `ptr`, which are not all inside the array. -/
  | readPastEnd (ptr len : Nat) : Outcome
  /-- Entry `i`, of declared length `len`, is written outside `char word[256]`. -/
  | writePastWord (i len : Nat) : Outcome
  /-- The loop over the vocabulary is left with these `filters` and `g_vocab`, the pointer
  being at offset `ptr`. -/
  | loaded (filters : whisper_filters) (vocab : whisper_vocab) (ptr : Nat) : Outcome
deriving DecidableEq

/-- The loop `for (int i = 0; i < n_vocab; i++)` (lines 90-100). `todo` is the number of
iterations left, `n_vocab - i`; `word` is the content of `char word[256]` and `m` is
`g_vocab.id_to_token`. When one `memcpy` both reads past the array and writes past `word`,
the read is what the model reports. -/
def loadVocab (bin : List Nat) (filters : whisper_filters) (n_vocab : Int) :
    Nat → Nat → Nat → List Nat → List (Int × List Nat) → Outcome
  | 0, _, ptr, _, m => Outcome.loaded filters ⟨n_vocab, m⟩ ptr
  | todo + 1, i, ptr, word, m =>
    match readBytes bin ptr 4 with
    | none => Outcome.readPastEnd ptr 4
    | some lenBytes =>
      let len := leValue lenBytes
      let ptr := ptr + 4
      match readBytes bin ptr len with
      | none => Outcome.readPastEnd ptr len
      | some bytes =>
        -- memcpy(word, ptr, len);
        if 256 < len then Outcome.writePastWord i len
        else
          let word := bytes ++ word.drop len
          -- word[len] = 0;
          if 256 ≤ len then Outcome.writePastWord i len
          else
            let word := word.set len 0
            let ptr := ptr + len
            loadVocab bin filters n_vocab todo (i + 1) ptr word
              (mapAssign m (i : Int) (cString word))

/-- Lines 56-100 of `main` on the array `bin`. `stack` is what the uninitialised locals hold:
`word[j]` starts as `stack j`. `filters.n_mel * filters.n_fft` is a product of 32-bit
unsigned fields, taken modulo `2 ^ 32`; its product with `sizeof(float)` is a `size_t` of 64
bits. `g_vocab.id_to_token` starts empty. -/
def parseBundle (stack : Nat → Nat) (bin : List Nat) : Outcome :=
  match readBytes bin 0 4 with
  | none => Outcome.readPastEnd 0 4
  | some magic =>
    if leValue magic ≠ 0x74666C74 then Outcome.badMagic
    else
      match readBytes bin 4 4 with
      | none => Outcome.readPastEnd 4 4
      | some melBytes =>
        let n_mel := leValue melBytes
        match readBytes bin 8 4 with
        | none => Outcome.readPastEnd 8 4
        | some fftBytes =>
          let n_fft := leValue fftBytes
          let count := (n_mel * n_fft) % 2 ^ 32
          match readBytes bin 12 (count * 4) with
          | none => Outcome.readPastEnd 12 (count * 4)
          | some weightBytes =>
            let filters : whisper_filters := ⟨n_mel, n_fft, floatsOf count weightBytes⟩
            let ptr := 12 + count * 4
            match readBytes bin ptr 4 with
            | none => Outcome.readPastEnd ptr 4
            | some vocabBytes =>
              let n_vocab := toInt32 (leValue vocabBytes)
              loadVocab bin filters n_vocab n_vocab.toNat 0 (ptr + 4)
                ((List.range 256).map stack) []

/-! ### The byte layout of the specification -/

/-- The four bytes of a 32-bit value, least significant first. -/
def u32le (v : Nat) : List Nat :=
  [v % 256, v / 256 % 256, v / 65536 % 256, v / 16777216 % 256]

/-- The content of a bundle, field by field, as the specification lists it:
`magic | mel_bands | fft_bins | weights | vocab_size | { len | bytes } *`. -/
structure Bundle where
  mel_bands : Nat
  fft_bins : Nat
  weights : List Nat
  vocab_size : Int
  entries : List (List Nat)
deriving DecidableEq

/-- The length-prefixed records of a vocabulary. -/
def recordBytes (entries : List (List Nat)) : List Nat :=
  (entries.map (fun w => u32le w.length ++ w)).flatten

/-- The bytes of a bundle in the layout of the specification; `vocab_size` is written as the
32-bit two's complement pattern of the `i32`. -/
def Bundle.bytes (b : Bundle) : List Nat :=
  u32le 0x74666C74 ++ u32le b.mel_bands ++ u32le b.fft_bins
    ++ (b.weights.map u32le).flatten
    ++ u32le (b.vocab_size % 2 ^ 32).toNat
    ++ recordBytes b.entries

/-- A valid bundle: every field fits its width, the number of weights is the 32-bit product
of `mel_bands` and `fft_bins` (the product itself whenever that is below `2 ^ 32`), there
are `vocab_size` records (none when it is negative), no record is longer than 255 bytes and
every record is made of bytes. -/
def Bundle.Valid (b : Bundle) : Prop :=
  b.mel_bands < 2 ^ 32 ∧ b.fft_bins < 2 ^ 32
    ∧ b.weights.length = (b.mel_bands * b.fft_bins) % 2 ^ 32
    ∧ (∀ d ∈ b.weights, d < 2 ^ 32)
    ∧ (-(2 ^ 31) ≤ b.vocab_size ∧ b.vocab_size < 2 ^ 31)
    ∧ b.entries.length = b.vocab_size.toNat
    ∧ (∀ w ∈ b.entries, w.length ≤ 255)
    ∧ (∀ w ∈ b.entries, ∀ c ∈ w, c < 256)

instance (b : Bundle) : Decidable b.Valid := by
  unfold Bundle.Valid
  infer_instance

/-- Re-encoding of what the parser produced: the filter bank and the vocabulary, its tokens
in the order of their ids, in the layout of the specification. -/
def encodeBundle (filters : whisper_filters) (vocab : whisper_vocab) : List Nat :=
  Bundle.bytes ⟨filters.n_mel, filters.n_fft, filters.data, vocab.n_vocab,
    vocab.id_to_token.map Prod.snd⟩

/-- A bundle without weights and with the two tokens "Hi" and "A". -/
def sampleBundle : Bundle :=
  ⟨0, 0, [], 2, [[72, 105], [65]]⟩

/-- An array of 12 bytes that ends after the header `magic | mel_bands = 1 | fft_bins = 1`:
the 4 bytes of the one weight that the header declares are missing. -/
def truncatedBundle : List Nat :=
  [0x74, 0x6C, 0x66, 0x74, 1, 0, 0, 0, 1, 0, 0, 0]

/-- A bundle without weights whose only vocabulary entry has 256 bytes, all of them `'A'`. -/
def overlongBundle : Bundle :=
  ⟨0, 0, [], 1, [List.replicate 256 65]⟩

/-- A bundle without weights with the two entries "Hi" and `65, 0, 66` ("A", a zero byte, "B"), the second of which has a
zero byte in it. -/
def nulBundle : Bundle :=
  ⟨0, 0, [], 2, [[72, 105], [65, 0, 66]]⟩

/-- An array of 16 bytes: the magic, `mel_bands = 65536`, `fft_bins = 65536` and
`vocab_size = 0`, without any weight. -/
def wrappedBundle : List Nat :=
  [0x74, 0x6C, 0x66, 0x74, 0, 0, 1, 0, 0, 0, 1, 0, 0, 0, 0, 0]

/-! ## Audio input (`main`, lines 103-153)

A `float` of this part is kept as the rational number it stands for. Every value computed
here is an integer of magnitude at most `2 ^ 16` divided by `2 ^ 16`; binary32 holds such a
number exactly, so the conversions `float(...)` and the divisions by `32768.0f` and
`65536.0f` are exact. -/

/-- What `main` uses of an opened WAV file: the header fields of `drwav`, the value `n` of
`int n = wav.totalPCMFrameCount` (the number of frames of the clip) and `pcm16 j`, the
content of `pcm16[j]` after `drwav_read_pcm_frames_s16`. -/
structure drwav where
  channels : Nat
  sampleRate : Nat
  bitsPerSample : Nat
  n : Nat
  pcm16 : Nat → Int

/-- The mono case, `float(pcm16[i]) / 32768.0f`. -/
def monoSample (s : Int) : ℚ :=
  (s : ℚ) / 32768

/-- The stereo case, `float(pcm16[2 * i] + pcm16[2 * i + 1]) / 65536.0f`: the two `int16_t`
are promoted to `int` before they are added, so the sum is the sum of the integers. -/
def stereoSample (left right : Int) : ℚ :=
  ((left + right : Int) : ℚ) / 65536

/-- Lines 136-145: `pcmf32.resize(n)` and the loop of the mono or of the stereo case. -/
def toMonoFloat (wav : drwav) : List ℚ :=
  if wav.channels = 1 then
    (List.range wav.n).map (fun i => monoSample (wav.pcm16 i))
  else
    (List.range wav.n).map (fun i => stereoSample (wav.pcm16 (2 * i)) (wav.pcm16 (2 * i + 1)))

/-- The call `v.resize(count, value)` of `std::vector`: the first `count` elements of `v`,
followed by copies of `value` when `v` has fewer than `count` elements. -/
def vectorResize (v : List ℚ) (count : Nat) (value : ℚ) : List ℚ :=
  v.take count ++ List.replicate (count - v.length) value

/-- How lines 106-149 end: with a `return` of `main`, or with the buffer `pcmf32`. -/
inductive AudioResult where
  /-- One of `return 3;`, `return 4;`, `return 5;`, `return 6;`. -/
  | failed (status : Int) : AudioResult
  /-- The vector `pcmf32` after line 149. -/
  | samples (pcmf32 : List ℚ) : AudioResult

/-- Lines 106-149. The two first arguments are the constants `WHISPER_SAMPLE_RATE` and
`WHISPER_CHUNK_SIZE` of `whisper.h`; `none` stands for a failure of `drwav_init_file`. -/
def loadAudio (WHISPER_SAMPLE_RATE WHISPER_CHUNK_SIZE : Nat) : Option drwav → AudioResult
  | none => AudioResult.failed 3
  | some wav =>
    if wav.channels ≠ 1 ∧ wav.channels ≠ 2 then AudioResult.failed 4
    else if wav.sampleRate ≠ WHISPER_SAMPLE_RATE then AudioResult.failed 5
    else if wav.bitsPerSample ≠ 16 then AudioResult.failed 6
    else
      AudioResult.samples
        (vectorResize (toMonoFloat wav) (WHISPER_SAMPLE_RATE * WHISPER_CHUNK_SIZE) 0)

/-! ## The whole of `main` -/

/-- Everything `main` depends on: its arguments, the embedded bundle, the uninitialised
stack, the file behind `argv[2]`, and the answers of the external collaborators (feature
extractor, TensorFlow Lite, the vocabulary lookup of `whisper.h`). -/
structure Env where
  argc : Int
  tflt_vocab_mel_bin : List Nat
  stack : Nat → Nat
  wav : Option drwav
  log_mel_spectrogram : List ℚ → whisper_filters → Bool
  model_built : Bool
  interpreter_built : Bool
  tensors_allocated : Bool
  invoke_ok : Bool
  output_int : List Int
  token_eot : Int
  whisper_token_to_str : Int → List Char

/-- What a run of `main` does, as far as the caller can tell: the status it returns (`none`
when the walk over the bundle leaves the array or the buffer `word`, where nothing is
defined any more), the samples handed to `log_mel_spectrogram` if it is called, whether
`interpreter->Invoke()` is called, and the text printed at line 210 if that line is
reached. -/
structure Run where
  status : Option Int
  melInput : Option (List ℚ)
  invoked : Bool
  text : Option (List Char)

/-- Lines 159-213: the model is loaded and run and the output is decoded. A failed
`TFLITE_MINIMAL_CHECK` is `exit(1)`. -/
def runInference (env : Env) (melInput : Option (List ℚ)) : Run :=
  if !env.model_built then ⟨some 1, melInput, false, none⟩
  else if !env.interpreter_built then ⟨some 1, melInput, false, none⟩
  else if !env.tensors_allocated then ⟨some 1, melInput, false, none⟩
  else if !env.invoke_ok then ⟨some 1, melInput, true, none⟩
  else
    ⟨some 0, melInput, true,
      some (decode env.token_eot env.whisper_token_to_str env.output_int)⟩

/-- The function `main`. -/
def main (WHISPER_SAMPLE_RATE WHISPER_CHUNK_SIZE : Nat) (env : Env) : Run :=
  if env.argc ≠ 2 ∧ env.argc ≠ 3 then ⟨some 1, none, false, none⟩
  else
    match parseBundle env.stack env.tflt_vocab_mel_bin with
    | Outcome.badMagic => ⟨some 0, none, false, none⟩
    | Outcome.readPastEnd _ _ => ⟨none, none, false, none⟩
    | Outcome.writePastWord _ _ => ⟨none, none, false, none⟩
    | Outcome.loaded filters _ _ =>
      if env.argc = 3 then
        match loadAudio WHISPER_SAMPLE_RATE WHISPER_CHUNK_SIZE env.wav with
        | AudioResult.failed status => ⟨some status, none, false, none⟩
        | AudioResult.samples pcmf32 =>
          if !env.log_mel_spectrogram pcmf32 filters then ⟨some (-1), some pcmf32, false, none⟩
          else runInference env (some pcmf32)
      else runInference env none

/-- A mono clip of three frames with the samples `-32768, 0, 16384`. -/
def monoClip : drwav :=
  ⟨1, 16000, 16, 3, fun j => if j = 0 then -32768 else if j = 1 then 0 else 16384⟩

/-- A stereo clip of two frames, `(32767, 32767)` and `(-32768, 100)`. -/
def stereoClip : drwav :=
  ⟨2, 16000, 16, 2,
    fun j => if j = 0 then 32767 else if j = 1 then 32767 else if j = 2 then -32768 else 100⟩

/-- A silent mono clip of 480001 frames, one more than 30 seconds at 16 kHz. -/
def longClip : drwav :=
  ⟨1, 16000, 16, 480001, fun _ => 0⟩

/-- A clip with three channels, at 16 kHz and 16 bits. -/
def threeChannelClip : drwav :=
  ⟨3, 16000, 16, 2, fun _ => 0⟩

/-- A run `minimal model.tflite clip.wav` with the bundle `sampleBundle`, in which the file
opens as `wav`, the feature extractor succeeds exactly when `melOk` holds, TensorFlow Lite
succeeds and the output tensor is `[5, 9, 50256, 42]`. -/
def sampleEnv (argc : Int) (wav : Option drwav) (melOk : Bool) : Env :=
  { argc := argc
    tflt_vocab_mel_bin := sampleBundle.bytes
    stack := fun _ => 0
    wav := wav
    log_mel_spectrogram := fun _ _ => melOk
    model_built := true
    interpreter_built := true
    tensors_allocated := true
    invoke_ok := true
    output_int := [5, 9, 50256, 42]
    token_eot := 50256
    whisper_token_to_str := helloWorldVocab }

theorem removeExtraSpacesLoop_append (s result : List Char) (space : Bool) :
    removeExtraSpacesLoop s result space = result ++ removeExtraSpacesLoop s [] space := by
  induction s generalizing result space with
  | nil => simp [removeExtraSpacesLoop]
  | cons c rest ih =>
    unfold removeExtraSpacesLoop
    by_cases hc : c = ' '
    · cases space
      · simp only [hc, if_true, Bool.not_false, List.nil_append]
        rw [ih (result ++ [' ']), ih [' ']]
        simp
      · simp only [hc, if_true, Bool.not_true, Bool.false_eq_true, if_false]
        rw [ih result]
    · simp only [hc, if_false, List.nil_append]
      rw [ih (result ++ [c]), ih [c]]
      simp

theorem removeExtraSpacesLoop_space (rest : List Char) :
    removeExtraSpacesLoop (' ' :: rest) [] true = removeExtraSpacesLoop rest [] true := by
  simp [removeExtraSpacesLoop]

theorem removeExtraSpacesLoop_first_space (rest : List Char) :
    removeExtraSpacesLoop (' ' :: rest) [] false = ' ' :: removeExtraSpacesLoop rest [] true := by
  rw [removeExtraSpacesLoop]
  simp only [if_true, Bool.not_false, List.nil_append]
  rw [removeExtraSpacesLoop_append]
  rfl

theorem removeExtraSpacesLoop_other (c : Char) (rest : List Char) (space : Bool) (hc : c ≠ ' ') :
    removeExtraSpacesLoop (c :: rest) [] space = c :: removeExtraSpacesLoop rest [] false := by
  rw [removeExtraSpacesLoop]
  simp only [hc, if_false, List.nil_append]
  rw [removeExtraSpacesLoop_append]
  rfl

/-- The piece under construction in `List.splitBy.loop` is rendered as its last character
alone: a piece of several characters is a run of spaces. -/
theorem collapse_splitBy_loop (l : List Char) (ag : Char) (g : List Char)
    (gs : List (List Char)) (hg : ∀ x ∈ g, x = ' ' ∧ ag = ' ') :
    ((List.splitBy.loop (fun a b => a == ' ' && b == ' ') l ag g gs).map
        (fun run => if ' ' ∈ run then [' '] else run)).flatten
      = ((gs.reverse).map (fun run => if ' ' ∈ run then [' '] else run)).flatten
          ++ removeExtraSpacesLoop l [ag] (decide (ag = ' ')) := by
  have hrun : (if ' ' ∈ (ag :: g).reverse then [' '] else (ag :: g).reverse) = [ag] := by
    by_cases ha : ag = ' '
    · simp [ha]
    · have hnil : g = [] := by
        cases g with
        | nil => rfl
        | cons x xs => exact absurd (hg x (List.mem_cons_self _ _)).2 ha
      subst hnil
      have : ¬ (' ' = ag) := fun h => ha h.symm
      simp [this]
  induction l generalizing ag g gs with
  | nil =>
    simp only [List.splitBy.loop, List.reverse_cons (a := (ag :: g).reverse), List.map_append,
      List.map_cons, List.map_nil, List.flatten_append, List.flatten_cons, List.flatten_nil,
      List.append_nil, hrun, removeExtraSpacesLoop]
  | cons a as ih =>
    rw [List.splitBy.loop]
    by_cases ha : ag = ' '
    · by_cases hb : a = ' '
      · subst ha; subst hb
        have hR : ((' ' : Char) == ' ' && (' ' : Char) == ' ') = true := by decide
        simp only [hR]
        have hg2 : ∀ x ∈ ' ' :: g, x = ' ' ∧ (' ' : Char) = ' ' := by
          intro x hx
          rcases List.mem_cons.1 hx with h | h
          · exact ⟨h, rfl⟩
          · exact ⟨(hg x h).1, rfl⟩
        have hrun2 : (if ' ' ∈ (' ' :: ' ' :: g).reverse then [' ']
            else (' ' :: ' ' :: g).reverse) = [' '] := by simp
        rw [ih ' ' (' ' :: g) gs hg2 hrun2]
        rfl
      · subst ha
        have hR : ((' ' : Char) == ' ' && a == ' ') = false := by simp [hb]
        simp only [hR]
        have hrun2 : (if ' ' ∈ [a].reverse then [' '] else [a].reverse) = [a] := by
          have : ¬ (' ' = a) := fun h => hb h.symm
          simp [this]
        rw [ih a [] ((' ' :: g).reverse :: gs) (by simp) hrun2]
        rw [List.reverse_cons (a := (' ' :: g).reverse), List.map_append, List.flatten_append]
        simp only [List.map_cons, List.map_nil, List.flatten_cons, List.flatten_nil,
          List.append_nil, hrun, List.append_assoc]
        congr 1
        rw [removeExtraSpacesLoop_append as [a], removeExtraSpacesLoop_append (a :: as) [' '],
          removeExtraSpacesLoop_other a as _ hb, removeExtraSpacesLoop_append as [] ]
        simp [hb]
    · have hR : (ag == ' ' && a == ' ') = false := by simp [ha]
      simp only [hR]
      have hrun2 : (if ' ' ∈ [a].reverse then [' '] else [a].reverse) = [a] := by
        by_cases hb : a = ' '
        · simp [hb]
        · have : ¬ (' ' = a) := fun h => hb h.symm
          simp [this]
      rw [ih a [] ((ag :: g).reverse :: gs) (by simp) hrun2]
      rw [List.reverse_cons (a := (ag :: g).reverse), List.map_append, List.flatten_append]
      simp only [List.map_cons, List.map_nil, List.flatten_cons, List.flatten_nil,
        List.append_nil, hrun, List.append_assoc]
      congr 1
      rw [removeExtraSpacesLoop_append as [a], removeExtraSpacesLoop_append (a :: as) [ag]]
      by_cases hb : a = ' '
      · subst hb
        simp [ha, removeExtraSpacesLoop_first_space]
      · rw [removeExtraSpacesLoop_other a as _ hb]
        simp [hb]

theorem removeExtraSpaces_eq_collapse (s : List Char) :
    removeExtraSpaces s = collapseSpaceRuns s := by
  cases s with
  | nil => rfl
  | cons a as =>
    unfold collapseSpaceRuns removeExtraSpaces
    rw [List.splitBy, collapse_splitBy_loop as a [] [] (by simp)]
    simp only [List.reverse_nil, List.map_nil, List.flatten_nil, List.nil_append]
    rw [removeExtraSpacesLoop_append as [a]]
    by_cases ha : a = ' '
    · subst ha
      simp [removeExtraSpacesLoop_first_space]
    · rw [removeExtraSpacesLoop_other a as _ ha]
      simp [ha]

theorem removeExtraSpacesLoop_filter (s : List Char) (space : Bool) :
    (removeExtraSpacesLoop s [] space).filter (fun c => c ≠ ' ')
      = s.filter (fun c => c ≠ ' ') := by
  induction s generalizing space with
  | nil => rfl
  | cons c rest ih =>
    by_cases hc : c = ' '
    · subst hc
      cases space
      · rw [removeExtraSpacesLoop_first_space]
        simpa using ih true
      · rw [removeExtraSpacesLoop_space]
        simpa using ih true
    · rw [removeExtraSpacesLoop_other c rest space hc]
      simpa [hc] using ih false

theorem getLast?_getD_of_all_space (s : List Char) (h : ∀ x ∈ s, x = ' ') :
    s.getLast?.getD ' ' = ' ' := by
  cases hl : s.getLast? with
  | none => rfl
  | some x => exact h x (List.mem_of_getLast?_eq_some hl)

theorem removeExtraSpacesLoop_getLast? (s : List Char) (space : Bool) :
    (removeExtraSpacesLoop s [] space).getLast?
      = if space = true ∧ (∀ x ∈ s, x = ' ') then none else s.getLast? := by
  induction s generalizing space with
  | nil => simp [removeExtraSpacesLoop]
  | cons c rest ih =>
    by_cases hc : c = ' '
    · subst hc
      cases space
      · rw [removeExtraSpacesLoop_first_space, List.getLast?_cons, ih true, List.getLast?_cons]
        have e1 : (if false = true ∧ (∀ x ∈ ' ' :: rest, x = ' ') then (none : Option Char)
            else some (rest.getLast?.getD ' ')) = some (rest.getLast?.getD ' ') :=
          if_neg (fun h => Bool.false_ne_true h.1)
        rw [e1]
        by_cases hall : ∀ x ∈ rest, x = ' '
        · have e2 : (if true = true ∧ (∀ x ∈ rest, x = ' ') then (none : Option Char)
              else rest.getLast?) = none := if_pos ⟨rfl, hall⟩
          rw [e2, getLast?_getD_of_all_space rest hall]
          rfl
        · have e2 : (if true = true ∧ (∀ x ∈ rest, x = ' ') then (none : Option Char)
              else rest.getLast?) = rest.getLast? := if_neg (fun h => hall h.2)
          rw [e2]
      · rw [removeExtraSpacesLoop_space, ih true]
        by_cases hall : ∀ x ∈ rest, x = ' '
        · have hall2 : ∀ x ∈ ' ' :: rest, x = ' ' := by
            intro x hx
            rcases List.mem_cons.1 hx with h | h
            · exact h
            · exact hall x h
          rw [if_pos ⟨rfl, hall⟩, if_pos ⟨rfl, hall2⟩]
        · have hall2 : ¬ ∀ x ∈ ' ' :: rest, x = ' ' :=
            fun h => hall (fun x hx => h x (List.mem_cons_of_mem _ hx))
          rw [if_neg (fun h => hall h.2), if_neg (fun h => hall2 h.2)]
          have hne : rest ≠ [] := by
            intro h
            subst h
            exact hall (by simp)
          obtain ⟨y, ys, rfl⟩ := List.exists_cons_of_ne_nil hne
          rw [List.getLast?_cons_cons]
    · have hall2 : ¬ (space = true ∧ ∀ x ∈ c :: rest, x = ' ') :=
        fun h => hc (h.2 c (List.mem_cons_self _ _))
      rw [removeExtraSpacesLoop_other c rest space hc, List.getLast?_cons, ih false,
        List.getLast?_cons, if_neg hall2]
      have e1 : (if false = true ∧ (∀ x ∈ rest, x = ' ') then (none : Option Char)
          else rest.getLast?) = rest.getLast? := if_neg (fun h => Bool.false_ne_true h.1)
      rw [e1]

theorem removeExtraSpacesLoop_chain (s : List Char) (space : Bool) :
    List.Chain' (fun a b : Char => ¬ (a = ' ' ∧ b = ' ')) (removeExtraSpacesLoop s [] space)
      ∧ (space = true → ∀ y ∈ (removeExtraSpacesLoop s [] space).head?, y ≠ ' ') := by
  induction s generalizing space with
  | nil => simp [removeExtraSpacesLoop]
  | cons c rest ih =>
    by_cases hc : c = ' '
    · subst hc
      cases space
      · rw [removeExtraSpacesLoop_first_space]
        refine ⟨(ih true).1.cons' ?_, by simp⟩
        intro y hy h
        exact (ih true).2 rfl y hy h.2
      · rw [removeExtraSpacesLoop_space]
        exact ih true
    · rw [removeExtraSpacesLoop_other c rest space hc]
      refine ⟨(ih false).1.cons' ?_, ?_⟩
      · intro y _ h
        exact hc h.1
      · intro _ y hy
        simp only [List.head?_cons, Option.mem_def, Option.some.injEq] at hy
        exact hy ▸ hc

theorem removeExtraSpaces_no_double_space (s : List Char) :
    ¬ ([' ', ' '] <:+: removeExtraSpaces s) := by
  intro h
  have hc := List.Chain'.infix (removeExtraSpacesLoop_chain s false).1 h
  simp [List.chain'_cons] at hc

/-! ## Theorems: token decoding -/

theorem decodeLoop_eq (token_eot : Int) (tok : Int → List Char) (ids : List Int)
    (text : List Char) :
    decodeLoop token_eot tok ids text
      = text ++ (((ids.takeWhile (fun id => id ≠ token_eot)).filter
          (fun id => id < token_eot)).map tok).flatten := by
  induction ids generalizing text with
  | nil => simp [decodeLoop]
  | cons id rest ih =>
    rw [decodeLoop]
    by_cases h1 : id = token_eot
    · simp [h1]
    · by_cases h2 : id < token_eot
      · simp [h1, h2, ih]
      · simp [h1, h2, ih]

theorem not_eot_of_mem_takeWhile (token_eot : Int) (ids : List Int) (a : Int)
    (ha : a ∈ ids.takeWhile (fun id => id ≠ token_eot)) : a ≠ token_eot := by
  induction ids with
  | nil => simp at ha
  | cons b rest ih =>
    by_cases hb : b = token_eot
    · simp [List.takeWhile_cons, hb] at ha
    · rw [List.takeWhile_cons, if_pos (decide_eq_true hb)] at ha
      rcases List.mem_cons.1 ha with h | h
      · exact h ▸ hb
      · exact ih h

/-- C1: decoding stops at the first end-of-text id. The text decoded from `ids` is the
text decoded from the prefix of `ids` before the first `token_eot`, and whatever ids are put
behind a `token_eot` that follows this prefix, the text stays the same. -/
theorem decode_stops_at_first_eot (token_eot : Int) (tok : Int → List Char)
    (ids after : List Int) :
    decode token_eot tok ids
        = decode token_eot tok (ids.takeWhile (fun id => id ≠ token_eot))
      ∧ decode token_eot tok (ids.takeWhile (fun id => id ≠ token_eot) ++ token_eot :: after)
        = decode token_eot tok (ids.takeWhile (fun id => id ≠ token_eot)) := by
  have hidem : (ids.takeWhile (fun id => id ≠ token_eot)).takeWhile
      (fun id => id ≠ token_eot) = ids.takeWhile (fun id => id ≠ token_eot) := by
    rw [List.takeWhile_eq_self_iff]
    intro a ha
    exact decide_eq_true (not_eot_of_mem_takeWhile token_eot ids a ha)
  have hcut : (ids.takeWhile (fun id => id ≠ token_eot) ++ token_eot :: after).takeWhile
      (fun id => id ≠ token_eot) = ids.takeWhile (fun id => id ≠ token_eot) := by
    rw [List.takeWhile_append_of_pos]
    · simp [List.takeWhile_cons]
    · intro a ha
      exact decide_eq_true (not_eot_of_mem_takeWhile token_eot ids a ha)
  unfold decode
  refine ⟨?_, ?_⟩
  · rw [decodeLoop_eq, decodeLoop_eq, hidem]
  · rw [decodeLoop_eq, decodeLoop_eq, hcut, hidem]

/-- C2: ids greater than the end-of-text id are skipped and do not stop the decoding. When
`ids` holds no `token_eot`, its text is the text of `ids` without the ids greater than
`token_eot`, and it is the cleaned-up concatenation of the tokens of all ids below
`token_eot`, in their order: nothing at or above `token_eot` is rendered and nothing below
it is lost. -/
theorem decode_skips_above_eot (token_eot : Int) (tok : Int → List Char) (ids : List Int)
    (h : token_eot ∉ ids) :
    decode token_eot tok ids
        = decode token_eot tok (ids.filter (fun id => ¬ (id > token_eot)))
      ∧ decode token_eot tok ids
        = removeExtraSpaces (((ids.filter (fun id => id < token_eot)).map tok).flatten) := by
  have htw : ∀ l : List Int, token_eot ∉ l →
      l.takeWhile (fun id => id ≠ token_eot) = l := by
    intro l hl
    rw [List.takeWhile_eq_self_iff]
    intro a ha
    have : a ≠ token_eot := fun e => hl (e ▸ ha)
    simpa using this
  have h2 : token_eot ∉ ids.filter (fun id => ¬ (id > token_eot)) :=
    fun hm => h (List.mem_of_mem_filter hm)
  have hff : (ids.filter (fun id => ¬ (id > token_eot))).filter (fun id => id < token_eot)
      = ids.filter (fun id => id < token_eot) := by
    rw [List.filter_filter]
    apply List.filter_congr
    intro x _
    by_cases hx : x < token_eot
    · have : ¬ (token_eot < x) := by omega
      simp [hx, this]
    · simp [hx]
  unfold decode
  refine ⟨?_, ?_⟩
  · rw [decodeLoop_eq, decodeLoop_eq, htw ids h, htw _ h2, hff]
  · rw [decodeLoop_eq, htw ids h]
    rfl

/-- C2 at the ids `[1, 7, 2]` with end-of-text id 5: the id 7 is skipped, 2 is still rendered. -/
theorem decode_skips_above_eot_witness :
    (5 : Int) ∉ [1, 7, 2]
      ∧ (decode 5 (fun id => if id = 1 then ['a', ' '] else [' ', 'b']) [1, 7, 2]
          = decode 5 (fun id => if id = 1 then ['a', ' '] else [' ', 'b'])
              (([1, 7, 2] : List Int).filter (fun id => ¬ (id > 5)))
        ∧ decode 5 (fun id => if id = 1 then ['a', ' '] else [' ', 'b']) [1, 7, 2]
          = removeExtraSpaces
              (((([1, 7, 2] : List Int).filter (fun id => id < 5)).map
                (fun id => if id = 1 then ['a', ' '] else [' ', 'b'])).flatten)) :=
  ⟨by decide, decode_skips_above_eot 5 _ [1, 7, 2] (by decide)⟩

/-- C3: `removeExtraSpaces` replaces each maximal run of spaces by one space and changes
nothing else. Its output is the input cut into maximal runs of spaces with each run
replaced by a single space; the characters other than `' '` (tabs and newlines among them)
are the same, in the same order; and the output begins and ends with the character the
input begins and ends with, so a leading or trailing run is kept as one space. -/
theorem removeExtraSpaces_collapses_runs (input : List Char) :
    removeExtraSpaces input = collapseSpaceRuns input
      ∧ (removeExtraSpaces input).filter (fun c => c ≠ ' ')
          = input.filter (fun c => c ≠ ' ')
      ∧ (removeExtraSpaces input).head? = input.head?
      ∧ (removeExtraSpaces input).getLast? = input.getLast? := by
  refine ⟨removeExtraSpaces_eq_collapse input, removeExtraSpacesLoop_filter input false, ?_, ?_⟩
  · cases input with
    | nil => rfl
    | cons c rest =>
      unfold removeExtraSpaces
      by_cases hc : c = ' '
      · subst hc
        rw [removeExtraSpacesLoop_first_space]
        rfl
      · rw [removeExtraSpacesLoop_other c rest false hc]
        rfl
  · unfold removeExtraSpaces
    rw [removeExtraSpacesLoop_getLast?]
    exact if_neg (fun h => Bool.false_ne_true h.1)

/-- C4: the decoded text is whitespace-collapsed. For every sentinel, every vocabulary and
every id sequence, two adjacent spaces occur nowhere in the text that decoding produces. -/
theorem decode_no_adjacent_spaces (token_eot : Int) (tok : Int → List Char)
    (ids : List Int) :
    ¬ ([' ', ' '] <:+: decode token_eot tok ids) :=
  removeExtraSpaces_no_double_space _

/-- C5, as stated, fails: with 5 mapped to "Hello" and 9 to "world" (end-of-text id 50256) the
ids `[5, 9, 50256, 42]` decode to "Helloworld", the tokens being appended one after the other
with nothing between them, and not to "Hello world". -/
theorem decode_hello_world_counterexample :
    decode 50256 helloWorldVocab [5, 9, 50256, 42] = "Helloworld".toList
      ∧ decode 50256 helloWorldVocab [5, 9, 50256, 42] ≠ "Hello world".toList := by
  decide

/-- C5, amended: whenever id 5 maps to "Hello", id 9 maps to "world" and the end-of-text id is
greater than 9, decoding `[5, 9, token_eot, 42]` yields exactly "Helloworld". -/
theorem decode_hello_world (token_eot : Int) (tok : Int → List Char)
    (heot : 9 < token_eot) (h5 : tok 5 = "Hello".toList) (h9 : tok 9 = "world".toList) :
    decode token_eot tok [5, 9, token_eot, 42] = "Helloworld".toList := by
  have a1 : (5 : Int) ≠ token_eot := by omega
  have a2 : (5 : Int) < token_eot := by omega
  have a3 : (9 : Int) ≠ token_eot := by omega
  unfold decode
  simp only [decodeLoop, a1, a2, a3, heot, if_true, if_false, h5, h9, List.nil_append]
  decide

/-- C5, amended, at the end-of-text id 50256 and the vocabulary `helloWorldVocab`. -/
theorem decode_hello_world_witness :
    (9 : Int) < 50256 ∧ helloWorldVocab 5 = "Hello".toList
      ∧ helloWorldVocab 9 = "world".toList
      ∧ decode 50256 helloWorldVocab [5, 9, 50256, 42] = "Helloworld".toList :=
  ⟨by decide, rfl, rfl, decode_hello_world 50256 helloWorldVocab (by decide) rfl rfl⟩

/-! ## Theorems: the resource bundle -/

theorem u32le_length (v : Nat) : (u32le v).length = 4 := rfl

theorem leValue_u32le (v : Nat) (h : v < 2 ^ 32) : leValue (u32le v) = v := by
  simp only [u32le, leValue]
  omega

theorem toInt32_pattern (n : Int) (h1 : -(2 ^ 31) ≤ n) (h2 : n < 2 ^ 31) :
    toInt32 (leValue (u32le (n % 2 ^ 32).toNat)) = n := by
  have hlt : (n % 2 ^ 32).toNat < 2 ^ 32 := by omega
  rw [leValue_u32le _ hlt]
  unfold toInt32
  split <;> omega

theorem readBytes_append (pre x post : List Nat) (ptr len : Nat)
    (hp : ptr = pre.length) (hl : len = x.length) :
    readBytes (pre ++ x ++ post) ptr len = some x := by
  subst hp; subst hl
  unfold readBytes
  rw [if_pos (by simp)]
  simp [List.append_assoc]

theorem flatten_u32le_length (data : List Nat) :
    ((data.map u32le).flatten).length = data.length * 4 := by
  induction data with
  | nil => rfl
  | cons d ds ih =>
    simp only [List.map_cons, List.flatten_cons, List.length_append, u32le_length, ih,
      List.length_cons]
    omega

theorem floatsOf_flatten (data rest : List Nat) (h : ∀ d ∈ data, d < 2 ^ 32) :
    floatsOf data.length ((data.map u32le).flatten ++ rest) = data := by
  induction data with
  | nil => rfl
  | cons d ds ih =>
    have hd : d < 2 ^ 32 := h d (List.mem_cons_self _ _)
    have hds : ∀ e ∈ ds, e < 2 ^ 32 := fun e he => h e (List.mem_cons_of_mem _ he)
    have e1 : (List.map u32le (d :: ds)).flatten ++ rest
        = u32le d ++ ((ds.map u32le).flatten ++ rest) := by
      simp [List.append_assoc]
    rw [List.length_cons, floatsOf, e1, List.take_left' (u32le_length d),
      List.drop_left' (u32le_length d), leValue_u32le d hd, ih hds]

theorem cString_word (bytes word : List Nat) (hw : word.length = 256)
    (hb : bytes.length ≤ 255) :
    cString ((bytes ++ word.drop bytes.length).set bytes.length 0) = cString bytes := by
  have hne : word.drop bytes.length ≠ [] := by
    intro h
    have := congrArg List.length h
    simp at this
    omega
  obtain ⟨c, tl, htl⟩ := List.exists_cons_of_ne_nil hne
  rw [htl]
  have e1 : (bytes ++ c :: tl).set bytes.length 0 = bytes ++ 0 :: tl := by
    rw [List.set_append_right _ _ (Nat.le_refl _)]
    simp
  rw [e1]
  unfold cString
  rw [List.takeWhile_append]
  split
  · rename_i hlen
    have : List.takeWhile (fun c => decide (c ≠ 0)) bytes = bytes :=
      (List.takeWhile_sublist _).eq_of_length hlen
    rw [this]
    simp
  · rfl

theorem mapAssign_last (m : List (Int × List Nat)) (k : Int) (v : List Nat)
    (h : ∀ e ∈ m, e.1 < k) : mapAssign m k v = m ++ [(k, v)] := by
  induction m with
  | nil => rfl
  | cons e m ih =>
    obtain ⟨k', v'⟩ := e
    have hk : k' < k := h (k', v') (List.mem_cons_self _ _)
    have h1 : ¬ k < k' := by omega
    have h2 : ¬ k = k' := by omega
    rw [mapAssign, if_neg h1, if_neg h2, ih (fun e he => h e (List.mem_cons_of_mem _ he))]
    rfl

theorem loadVocab_records (filters : whisper_filters) (n_vocab : Int)
    (entries : List (List Nat)) :
    ∀ (pre extra : List Nat) (i : Nat) (word : List Nat) (m : List (Int × List Nat)),
      word.length = 256 → (∀ w ∈ entries, w.length ≤ 255) → (∀ e ∈ m, e.1 < (i : Int)) →
      loadVocab (pre ++ recordBytes entries ++ extra) filters n_vocab entries.length i
          pre.length word m
        = Outcome.loaded filters
            ⟨n_vocab, m ++ List.zip ((List.range' i entries.length).map Int.ofNat)
              (entries.map cString)⟩
            (pre.length + (recordBytes entries).length) := by
  induction entries with
  | nil =>
    intro pre extra i word m _ _ _
    simp [loadVocab, recordBytes]
  | cons w ws ih =>
    intro pre extra i word m hword hlen hm
    have hw : w.length ≤ 255 := hlen w (List.mem_cons_self _ _)
    have hws : ∀ x ∈ ws, x.length ≤ 255 := fun x hx => hlen x (List.mem_cons_of_mem _ hx)
    have hrec : recordBytes (w :: ws) = u32le w.length ++ w ++ recordBytes ws := by
      simp [recordBytes, List.append_assoc]
    have h1 : readBytes (pre ++ recordBytes (w :: ws) ++ extra) pre.length 4
        = some (u32le w.length) := by
      have e : pre ++ recordBytes (w :: ws) ++ extra
          = pre ++ u32le w.length ++ (w ++ recordBytes ws ++ extra) := by
        rw [hrec]; simp only [List.append_assoc]
      rw [e]
      exact readBytes_append pre (u32le w.length) _ _ _ rfl rfl
    have h2 : readBytes (pre ++ recordBytes (w :: ws) ++ extra) (pre.length + 4) w.length
        = some w := by
      have e : pre ++ recordBytes (w :: ws) ++ extra
          = (pre ++ u32le w.length) ++ w ++ (recordBytes ws ++ extra) := by
        rw [hrec]; simp only [List.append_assoc]
      rw [e]
      exact readBytes_append (pre ++ u32le w.length) w _ _ _ (by simp [u32le_length]) rfl
    have hv : leValue (u32le w.length) = w.length := leValue_u32le _ (by omega)
    have hword2 : ((w ++ word.drop w.length).set w.length 0).length = 256 := by
      simp only [List.length_set, List.length_append, List.length_drop]
      omega
    have hm2 : ∀ e ∈ m ++ [((i : Int), cString w)], e.1 < ((i + 1 : Nat) : Int) := by
      intro e he
      rcases List.mem_append.1 he with h | h
      · have := hm e h
        omega
      · simp only [List.mem_singleton] at h
        subst h
        simp
    have hbin : pre ++ recordBytes (w :: ws) ++ extra
        = (pre ++ u32le w.length ++ w) ++ recordBytes ws ++ extra := by
      rw [hrec]; simp only [List.append_assoc]
    have hptr : pre.length + 4 + w.length = (pre ++ u32le w.length ++ w).length := by
      simp only [List.length_append, u32le_length]
    rw [List.length_cons, loadVocab]
    simp only [h1, hv, h2]
    rw [if_neg (by omega), if_neg (by omega), cString_word w word hword hw,
      mapAssign_last m _ _ hm, hbin, hptr,
      ih (pre ++ u32le w.length ++ w) extra (i + 1) _ _ hword2 hws hm2]
    congr 1
    · simp [List.range'_succ, List.append_assoc]
    · simp [hrec, u32le_length]
      omega

/-- The walk over a valid bundle, whatever follows it in the array: every read is inside the
bundle, the fields come back as they are, token `k` is record `k` up to its first zero byte
and the pointer ends right behind the bundle. -/
theorem parseBundle_bytes (stack : Nat → Nat) (b : Bundle) (extra : List Nat)
    (hv : b.Valid) :
    parseBundle stack (b.bytes ++ extra)
      = Outcome.loaded ⟨b.mel_bands, b.fft_bins, b.weights⟩
          ⟨b.vocab_size, List.zip ((List.range b.entries.length).map Int.ofNat)
            (b.entries.map cString)⟩
          b.bytes.length := by
  obtain ⟨hmel, hfft, hwl, hwd, ⟨hv1, hv2⟩, hel, hlen, _⟩ := hv
  have hW : ((b.weights.map u32le).flatten).length
      = (b.mel_bands * b.fft_bins) % 2 ^ 32 * 4 := by
    rw [flatten_u32le_length, hwl]
  have hmagic : leValue (u32le 0x74666C74) = 0x74666C74 := by decide
  have h0 : readBytes (b.bytes ++ extra) 0 4 = some (u32le 0x74666C74) := by
    have e : b.bytes ++ extra = [] ++ u32le 0x74666C74 ++ (u32le b.mel_bands
        ++ u32le b.fft_bins ++ (b.weights.map u32le).flatten
        ++ u32le (b.vocab_size % 2 ^ 32).toNat ++ recordBytes b.entries ++ extra) := by
      simp only [Bundle.bytes, List.append_assoc, List.nil_append]
    rw [e]
    exact readBytes_append [] _ _ _ _ rfl rfl
  have h4 : readBytes (b.bytes ++ extra) 4 4 = some (u32le b.mel_bands) := by
    have e : b.bytes ++ extra = u32le 0x74666C74 ++ u32le b.mel_bands
        ++ (u32le b.fft_bins ++ (b.weights.map u32le).flatten
        ++ u32le (b.vocab_size % 2 ^ 32).toNat ++ recordBytes b.entries ++ extra) := by
      simp only [Bundle.bytes, List.append_assoc]
    rw [e]
    exact readBytes_append _ _ _ _ _ rfl rfl
  have h8 : readBytes (b.bytes ++ extra) 8 4 = some (u32le b.fft_bins) := by
    have e : b.bytes ++ extra = (u32le 0x74666C74 ++ u32le b.mel_bands)
        ++ u32le b.fft_bins ++ ((b.weights.map u32le).flatten
        ++ u32le (b.vocab_size % 2 ^ 32).toNat ++ recordBytes b.entries ++ extra) := by
      simp only [Bundle.bytes, List.append_assoc]
    rw [e]
    exact readBytes_append _ _ _ _ _ rfl rfl
  have h12 : readBytes (b.bytes ++ extra) 12 ((b.mel_bands * b.fft_bins) % 2 ^ 32 * 4)
      = some ((b.weights.map u32le).flatten) := by
    have e : b.bytes ++ extra = (u32le 0x74666C74 ++ u32le b.mel_bands
        ++ u32le b.fft_bins) ++ (b.weights.map u32le).flatten
        ++ (u32le (b.vocab_size % 2 ^ 32).toNat ++ recordBytes b.entries ++ extra) := by
      simp only [Bundle.bytes, List.append_assoc]
    rw [e]
    exact readBytes_append _ _ _ _ _ rfl hW.symm
  have hV : readBytes (b.bytes ++ extra) (12 + (b.mel_bands * b.fft_bins) % 2 ^ 32 * 4) 4
      = some (u32le (b.vocab_size % 2 ^ 32).toNat) := by
    have e : b.bytes ++ extra = (u32le 0x74666C74 ++ u32le b.mel_bands
        ++ u32le b.fft_bins ++ (b.weights.map u32le).flatten)
        ++ u32le (b.vocab_size % 2 ^ 32).toNat ++ (recordBytes b.entries ++ extra) := by
      simp only [Bundle.bytes, List.append_assoc]
    rw [e]
    refine readBytes_append _ _ _ _ _ ?_ rfl
    simp only [List.length_append, u32le_length, hW]
  have hfl : floatsOf ((b.mel_bands * b.fft_bins) % 2 ^ 32) ((b.weights.map u32le).flatten)
      = b.weights := by
    have := floatsOf_flatten b.weights [] hwd
    rwa [List.append_nil, hwl] at this
  have hloop := loadVocab_records ⟨b.mel_bands, b.fft_bins, b.weights⟩ b.vocab_size b.entries
    (u32le 0x74666C74 ++ u32le b.mel_bands ++ u32le b.fft_bins
      ++ (b.weights.map u32le).flatten ++ u32le (b.vocab_size % 2 ^ 32).toNat)
    extra 0 ((List.range 256).map stack) [] (by simp) hlen (by simp)
  have hpre : (u32le 0x74666C74 ++ u32le b.mel_bands ++ u32le b.fft_bins
      ++ (b.weights.map u32le).flatten ++ u32le (b.vocab_size % 2 ^ 32).toNat).length
      = 12 + (b.mel_bands * b.fft_bins) % 2 ^ 32 * 4 + 4 := by
    simp only [List.length_append, u32le_length, hW]
  have hbin : u32le 0x74666C74 ++ u32le b.mel_bands ++ u32le b.fft_bins
      ++ (b.weights.map u32le).flatten ++ u32le (b.vocab_size % 2 ^ 32).toNat
      ++ recordBytes b.entries ++ extra = b.bytes ++ extra := rfl
  have hlenb : b.bytes.length
      = 12 + (b.mel_bands * b.fft_bins) % 2 ^ 32 * 4 + 4
          + (recordBytes b.entries).length := by
    simp only [Bundle.bytes, List.length_append, u32le_length, hW]
  rw [hbin, hpre, List.nil_append, ← hlenb, hel, ← List.range_eq_range'] at hloop
  unfold parseBundle
  simp only [h0, hmagic, h4, h8, leValue_u32le _ hmel, leValue_u32le _ hfft,
    h12, hV, hfl, toInt32_pattern _ hv1 hv2, ne_eq,
    not_true_eq_false, if_false]
  rw [hloop, hel]

theorem cString_of_no_nul (w : List Nat) (h : 0 ∉ w) : cString w = w := by
  unfold cString
  rw [List.takeWhile_eq_self_iff]
  intro c hc
  have : c ≠ 0 := fun e => h (e ▸ hc)
  simpa using this

theorem mapFind_zip_range' (tokens : List (List Nat)) :
    ∀ (i : Nat) (id : Int),
      mapFind (List.zip ((List.range' i tokens.length).map Int.ofNat) tokens) id
        = if (i : Int) ≤ id then tokens[id.toNat - i]? else none := by
  induction tokens with
  | nil =>
    intro i id
    simp [mapFind]
  | cons t ts ih =>
    intro i id
    rw [List.length_cons, List.range'_succ, List.map_cons, List.zip_cons_cons]
    by_cases h : id = (i : Int)
    · subst h
      simp [mapFind]
    · have hne : ¬ (Int.ofNat i = id) := fun e => h e.symm
      have hstep : mapFind ((Int.ofNat i, t) ::
          List.zip ((List.range' (i + 1) ts.length).map Int.ofNat) ts) id
          = mapFind (List.zip ((List.range' (i + 1) ts.length).map Int.ofNat) ts) id := by
        unfold mapFind
        rw [List.find?_cons_of_neg _ (by simpa using hne)]
      rw [hstep, ih (i + 1) id]
      by_cases hle : (i : Int) ≤ id
      · have hlt : ((i + 1 : Nat) : Int) ≤ id := by omega
        rw [if_pos hle, if_pos hlt]
        have e : id.toNat - i = (id.toNat - (i + 1)) + 1 := by omega
        rw [e, List.getElem?_cons_succ]
      · have hlt : ¬ ((i + 1 : Nat) : Int) ≤ id := by omega
        rw [if_neg hle, if_neg hlt]

/-- C6: a bundle with a bad magic number is rejected before anything else is read. When the
first 4 bytes of the array, read as a little-endian integer, are not `0x74666C74`, the walk
ends in the bad-magic branch, with no filter bank and no vocabulary entry; and any other
array with the same first 4 bytes ends in the same way, whatever follows them and whatever
the uninitialised locals hold. -/
theorem parseBundle_bad_magic (stack stack' : Nat → Nat) (bin bin' : List Nat)
    (hlen : 4 ≤ bin.length) (hlen' : 4 ≤ bin'.length)
    (hbad : leValue (bin.take 4) ≠ 0x74666C74) (hsame : bin'.take 4 = bin.take 4) :
    parseBundle stack bin = Outcome.badMagic
      ∧ parseBundle stack' bin' = parseBundle stack bin := by
  have hread : ∀ l : List Nat, 4 ≤ l.length → readBytes l 0 4 = some (l.take 4) := by
    intro l hl
    unfold readBytes
    rw [if_pos (by omega)]
    rfl
  have h1 : parseBundle stack bin = Outcome.badMagic := by
    unfold parseBundle
    simp only [hread bin hlen, hbad, ne_eq, not_false_eq_true, if_true]
  have h2 : parseBundle stack' bin' = Outcome.badMagic := by
    unfold parseBundle
    simp only [hread bin' hlen', hsame, hbad, ne_eq, not_false_eq_true, if_true]
  exact ⟨h1, h2.trans h1.symm⟩

/-- C6 at two arrays that begin with `74 6C 66 75`, one of 7 bytes and one of 4. -/
theorem parseBundle_bad_magic_witness :
    4 ≤ [0x74, 0x6C, 0x66, 0x75, 1, 0, 0].length ∧ 4 ≤ [0x74, 0x6C, 0x66, 0x75].length
      ∧ leValue ([0x74, 0x6C, 0x66, 0x75, 1, 0, 0].take 4) ≠ 0x74666C74
      ∧ [0x74, 0x6C, 0x66, 0x75].take 4 = [0x74, 0x6C, 0x66, 0x75, 1, 0, 0].take 4
      ∧ parseBundle (fun _ => 0) [0x74, 0x6C, 0x66, 0x75, 1, 0, 0] = Outcome.badMagic
      ∧ parseBundle (fun _ => 1) [0x74, 0x6C, 0x66, 0x75]
          = parseBundle (fun _ => 0) [0x74, 0x6C, 0x66, 0x75, 1, 0, 0] :=
  ⟨by decide, by decide, by decide, by decide,
    parseBundle_bad_magic (fun _ => 0) (fun _ => 1) [0x74, 0x6C, 0x66, 0x75, 1, 0, 0]
      [0x74, 0x6C, 0x66, 0x75] (by decide) (by decide) (by decide) (by decide)⟩

/-- C7, as stated, fails: on an array of 12 bytes with a correct magic whose header declares
one weight, the code does not end in an error branch but copies the 4 bytes at offsets 12
to 15, which lie behind the end of the array. -/
theorem parseBundle_truncated_counterexample :
    truncatedBundle.length = 12
      ∧ leValue (truncatedBundle.take 4) = 0x74666C74
      ∧ parseBundle (fun _ => 0) truncatedBundle = Outcome.readPastEnd 12 4
      ∧ parseBundle (fun _ => 0) truncatedBundle ≠ Outcome.badMagic := by
  decide

/-- On an array that begins with a valid bundle (every declared size lies inside the array
and no entry is longer than 255 bytes) the walk ends normally, having read only inside the
array: it stops with the pointer right behind the bundle, at an offset that is at most the
length of the array. -/
theorem parseBundle_valid_in_bounds (stack : Nat → Nat) (b : Bundle) (extra : List Nat)
    (hv : b.Valid) :
    ∃ filters vocab ptr,
      parseBundle stack (b.bytes ++ extra) = Outcome.loaded filters vocab ptr
        ∧ ptr = b.bytes.length ∧ ptr ≤ (b.bytes ++ extra).length :=
  ⟨_, _, _, parseBundle_bytes stack b extra hv, rfl, by simp⟩

/-- The walk over `sampleBundle` followed by three more bytes stays inside the array. -/
theorem parseBundle_valid_in_bounds_witness :
    sampleBundle.Valid
      ∧ ∃ filters vocab ptr,
          parseBundle (fun _ => 0) (sampleBundle.bytes ++ [1, 2, 3])
              = Outcome.loaded filters vocab ptr
            ∧ ptr = sampleBundle.bytes.length
            ∧ ptr ≤ (sampleBundle.bytes ++ [1, 2, 3]).length :=
  ⟨by decide, parseBundle_valid_in_bounds (fun _ => 0) sampleBundle [1, 2, 3] (by decide)⟩

set_option maxRecDepth 100000

/-- C8, the code at the failing input: a valid-looking bundle whose only vocabulary entry
declares 256 bytes, all present in the array. No error branch is taken; `word[256] = 0` is
a write behind the 256 bytes of `word`. -/
theorem parseBundle_overlong_entry :
    parseBundle (fun _ => 0) overlongBundle.bytes = Outcome.writePastWord 0 256 := by
  decide

/-- C9, as stated, fails: the bundle with the entries "Hi" and `65, 0, 66` ("A", a zero byte, "B") is valid and is read to
its last byte, but the token of the second entry is cut at its zero byte, and re-encoding
what was parsed gives 27 bytes instead of the 29 of the bundle. -/
theorem roundtrip_counterexample :
    nulBundle.Valid
      ∧ parseBundle (fun _ => 0) nulBundle.bytes
          = Outcome.loaded ⟨0, 0, []⟩ ⟨2, [(0, [72, 105]), (1, [65])]⟩ nulBundle.bytes.length
      ∧ encodeBundle ⟨0, 0, []⟩ ⟨2, [(0, [72, 105]), (1, [65])]⟩ ≠ nulBundle.bytes
      ∧ (encodeBundle ⟨0, 0, []⟩ ⟨2, [(0, [72, 105]), (1, [65])]⟩).length = 27
      ∧ nulBundle.bytes.length = 29 := by
  decide

/-- C9, amended: for every valid bundle none of whose vocabulary entries holds a zero byte,
the walk reads the array to its last byte, and re-encoding the filter bank and the
vocabulary it produced gives back the bytes of the bundle. -/
theorem parse_encode_roundtrip (stack : Nat → Nat) (b : Bundle) (hv : b.Valid)
    (hnul : ∀ w ∈ b.entries, 0 ∉ w) :
    ∃ filters vocab,
      parseBundle stack b.bytes = Outcome.loaded filters vocab b.bytes.length
        ∧ encodeBundle filters vocab = b.bytes := by
  have hp := parseBundle_bytes stack b [] hv
  rw [List.append_nil] at hp
  refine ⟨_, _, hp, ?_⟩
  have hc : b.entries.map cString = b.entries := by
    conv_rhs => rw [← List.map_id b.entries]
    apply List.map_congr_left
    intro w hw
    exact cString_of_no_nul w (hnul w hw)
  unfold encodeBundle
  simp only
  rw [List.map_snd_zip _ _ (by simp), hc]

/-- C9, amended, at `sampleBundle`, whose entries "Hi" and "A" hold no zero byte. -/
theorem parse_encode_roundtrip_witness :
    sampleBundle.Valid ∧ (∀ w ∈ sampleBundle.entries, 0 ∉ w)
      ∧ ∃ filters vocab,
          parseBundle (fun _ => 0) sampleBundle.bytes
              = Outcome.loaded filters vocab sampleBundle.bytes.length
            ∧ encodeBundle filters vocab = sampleBundle.bytes :=
  ⟨by decide, by decide,
    parse_encode_roundtrip (fun _ => 0) sampleBundle (by decide) (by decide)⟩

/-- C10, as stated, fails: in the bundle with the records "Hi" and `65, 0, 66` ("A", a zero byte, "B"), id 1 is not mapped
to the second record but to "A", the part of it before the zero byte. -/
theorem sequential_ids_counterexample :
    nulBundle.Valid ∧ nulBundle.vocab_size = 2 ∧ nulBundle.entries[1]? = some [65, 0, 66]
      ∧ parseBundle (fun _ => 0) nulBundle.bytes
          = Outcome.loaded ⟨0, 0, []⟩ ⟨2, [(0, [72, 105]), (1, [65])]⟩ 29
      ∧ mapFind [(0, [72, 105]), (1, [65])] 1 = some [65]
      ∧ mapFind [(0, [72, 105]), (1, [65])] 1 ≠ some [65, 0, 66] := by
  decide

/-- C10, amended: vocabulary entries receive sequential ids in bundle order. After the walk
over a valid bundle that declares `vocab_size = n ≥ 0`, the map holds exactly the ids
`0, 1, ..., n - 1`, each once; id `k` is mapped to record `k` of the bundle cut at its first
zero byte, which is the whole record when it has no zero byte; and no other id has an
entry. -/
theorem parseBundle_sequential_ids (stack : Nat → Nat) (b : Bundle) (extra : List Nat)
    (hv : b.Valid) (hn : 0 ≤ b.vocab_size) :
    ∃ filters vocab ptr,
      parseBundle stack (b.bytes ++ extra) = Outcome.loaded filters vocab ptr
        ∧ vocab.n_vocab = b.vocab_size
        ∧ (b.entries.length : Int) = b.vocab_size
        ∧ vocab.id_to_token.map Prod.fst = (List.range b.entries.length).map Int.ofNat
        ∧ (∀ id : Int, mapFind vocab.id_to_token id
            = if 0 ≤ id then (b.entries[id.toNat]?).map cString else none)
        ∧ (∀ w ∈ b.entries, 0 ∉ w → cString w = w) := by
  refine ⟨_, _, _, parseBundle_bytes stack b extra hv, rfl, ?_, ?_, ?_, ?_⟩
  · have := hv.2.2.2.2.2.1
    omega
  · exact List.map_fst_zip _ _ (by simp)
  · intro id
    have h := mapFind_zip_range' (b.entries.map cString) 0 id
    rw [List.length_map, ← List.range_eq_range'] at h
    simpa using h
  · intro w _ h0
    exact cString_of_no_nul w h0

/-- C10, amended, at `nulBundle` followed by one more byte. -/
theorem parseBundle_sequential_ids_witness :
    nulBundle.Valid ∧ 0 ≤ nulBundle.vocab_size
      ∧ ∃ filters vocab ptr,
          parseBundle (fun _ => 0) (nulBundle.bytes ++ [9]) = Outcome.loaded filters vocab ptr
            ∧ vocab.n_vocab = nulBundle.vocab_size
            ∧ (nulBundle.entries.length : Int) = nulBundle.vocab_size
            ∧ vocab.id_to_token.map Prod.fst
                = (List.range nulBundle.entries.length).map Int.ofNat
            ∧ (∀ id : Int, mapFind vocab.id_to_token id
                = if 0 ≤ id then (nulBundle.entries[id.toNat]?).map cString else none)
            ∧ (∀ w ∈ nulBundle.entries, 0 ∉ w → cString w = w) :=
  ⟨by decide, by decide,
    parseBundle_sequential_ids (fun _ => 0) nulBundle [9] (by decide) (by decide)⟩

/-! ## Theorems: `removeExtraSpaces` as a normal form -/

theorem removeExtraSpacesLoop_length_le (s : List Char) (space : Bool) :
    (removeExtraSpacesLoop s [] space).length ≤ s.length := by
  induction s generalizing space with
  | nil => simp [removeExtraSpacesLoop]
  | cons c rest ih =>
    by_cases hc : c = ' '
    · subst hc
      cases space
      · rw [removeExtraSpacesLoop_first_space]
        simpa using ih true
      · rw [removeExtraSpacesLoop_space]
        exact Nat.le_succ_of_le (ih true)
    · rw [removeExtraSpacesLoop_other c rest space hc]
      simpa using ih false

theorem removeExtraSpacesLoop_fixed (s : List Char) (space : Bool)
    (hchain : List.Chain' (fun a b : Char => ¬ (a = ' ' ∧ b = ' ')) s)
    (hhead : space = true → ∀ y ∈ s.head?, y ≠ ' ') :
    removeExtraSpacesLoop s [] space = s := by
  induction s generalizing space with
  | nil => rfl
  | cons c rest ih =>
    have hrest := (List.chain'_cons'.1 hchain).2
    have hnext := (List.chain'_cons'.1 hchain).1
    by_cases hc : c = ' '
    · subst hc
      cases space
      · rw [removeExtraSpacesLoop_first_space, ih true hrest]
        intro _ y hy h
        exact hnext y hy ⟨rfl, h⟩
      · exact absurd rfl (hhead rfl ' ' (by simp))
    · rw [removeExtraSpacesLoop_other c rest space hc, ih false hrest]
      intro h
      exact absurd h Bool.false_ne_true

theorem chain_of_no_double_space (s : List Char) (h : ¬ ([' ', ' '] <:+: s)) :
    List.Chain' (fun a b : Char => ¬ (a = ' ' ∧ b = ' ')) s := by
  induction s with
  | nil => exact List.chain'_nil
  | cons c rest ih =>
    refine List.chain'_cons'.2 ⟨?_, ih ?_⟩
    · intro y hy hcy
      cases rest with
      | nil => simp at hy
      | cons d rest2 =>
        simp only [List.head?_cons, Option.mem_def, Option.some.injEq] at hy
        subst hy
        apply h
        rw [hcy.1, hcy.2]
        exact ⟨[], rest2, rfl⟩
    · intro hin
      obtain ⟨p, q, hpq⟩ := hin
      exact h ⟨c :: p, q, by rw [← hpq]; rfl⟩

/-- C20: `removeExtraSpaces` is idempotent, never lengthens its input, and leaves a string
unchanged exactly when the string has no two adjacent spaces. -/
theorem removeExtraSpaces_idempotent (s : List Char) :
    removeExtraSpaces (removeExtraSpaces s) = removeExtraSpaces s
      ∧ (removeExtraSpaces s).length ≤ s.length
      ∧ (removeExtraSpaces s = s ↔ ¬ ([' ', ' '] <:+: s)) := by
  refine ⟨?_, removeExtraSpacesLoop_length_le s false, ?_, ?_⟩
  · exact removeExtraSpacesLoop_fixed _ false (removeExtraSpacesLoop_chain s false).1
      (fun h => absurd h Bool.false_ne_true)
  · intro h
    rw [← h]
    exact removeExtraSpaces_no_double_space s
  · intro h
    exact removeExtraSpacesLoop_fixed s false (chain_of_no_double_space s h)
      (fun h => absurd h Bool.false_ne_true)

/-! ## Theorems: tokens as C strings -/

theorem cString_cut (w : List Nat) :
    cString w <+: w ∧ 0 ∉ cString w
      ∧ ((cString w).length < w.length → w[(cString w).length]? = some 0) := by
  induction w with
  | nil => simp [cString]
  | cons c rest ih =>
    by_cases hc : c = 0
    · subst hc
      simp [cString, List.takeWhile_cons]
    · have e : cString (c :: rest) = c :: cString rest := by
        simp [cString, List.takeWhile_cons, hc]
      rw [e]
      refine ⟨?_, ?_, ?_⟩
      · obtain ⟨t, ht⟩ := ih.1
        exact ⟨t, by rw [List.cons_append, ht]⟩
      · intro hmem
        rcases List.mem_cons.1 hmem with h | h
        · exact hc h.symm
        · exact ih.2.1 h
      · intro hlt
        rw [List.length_cons, List.getElem?_cons_succ]
        apply ih.2.2
        simpa using hlt

/-- C19: the token stored for a vocabulary entry is the entry cut at its first zero byte.
After the walk over a valid bundle (so every entry has at most 255 bytes), the token of id
`k` begins entry `k`, holds no zero byte, and is either the whole entry or followed in the
entry by a zero byte; it is the whole entry exactly when the entry has no zero byte. -/
theorem token_is_entry_cut_at_nul (stack : Nat → Nat) (b : Bundle) (extra : List Nat)
    (hv : b.Valid) :
    ∃ filters vocab ptr,
      parseBundle stack (b.bytes ++ extra) = Outcome.loaded filters vocab ptr
        ∧ ∀ (k : Nat) (w : List Nat), b.entries[k]? = some w →
            ∃ token, mapFind vocab.id_to_token (k : Int) = some token
              ∧ token = w.takeWhile (fun c => c ≠ 0)
              ∧ token <+: w ∧ 0 ∉ token
              ∧ (token.length < w.length → w[token.length]? = some 0)
              ∧ (token = w ↔ 0 ∉ w) := by
  refine ⟨_, _, _, parseBundle_bytes stack b extra hv, ?_⟩
  intro k w hk
  refine ⟨cString w, ?_, rfl, (cString_cut w).1, (cString_cut w).2.1, (cString_cut w).2.2, ?_⟩
  · have h := mapFind_zip_range' (b.entries.map cString) 0 (k : Int)
    rw [List.length_map, ← List.range_eq_range'] at h
    simp only [h]
    simp [hk]
  · constructor
    · intro h hmem
      have h0 := (cString_cut w).2.1
      rw [h] at h0
      exact h0 hmem
    · exact cString_of_no_nul w

/-- C19 at `nulBundle`, whose second entry is `65, 0, 66`. -/
theorem token_is_entry_cut_at_nul_witness :
    nulBundle.Valid
      ∧ ∃ filters vocab ptr,
          parseBundle (fun _ => 0) (nulBundle.bytes ++ []) = Outcome.loaded filters vocab ptr
            ∧ ∀ (k : Nat) (w : List Nat), nulBundle.entries[k]? = some w →
                ∃ token, mapFind vocab.id_to_token (k : Int) = some token
                  ∧ token = w.takeWhile (fun c => c ≠ 0)
                  ∧ token <+: w ∧ 0 ∉ token
                  ∧ (token.length < w.length → w[token.length]? = some 0)
                  ∧ (token = w ↔ 0 ∉ w) :=
  ⟨by decide, token_is_entry_cut_at_nul (fun _ => 0) nulBundle [] (by decide)⟩

/-! ## Theorems: the filter bank -/

theorem readBytes_eq_some (bin : List Nat) (ptr len : Nat) (x : List Nat)
    (h : readBytes bin ptr len = some x) :
    x = (bin.drop ptr).take len ∧ ptr + len ≤ bin.length := by
  unfold readBytes at h
  split at h
  · rename_i hle
    exact ⟨(Option.some.inj h).symm, hle⟩
  · exact absurd h (by simp)

theorem loadVocab_filters (bin : List Nat) (filters : whisper_filters) (n_vocab : Int) :
    ∀ (todo i ptr : Nat) (word : List Nat) (m : List (Int × List Nat))
      (f : whisper_filters) (v : whisper_vocab) (p : Nat),
      loadVocab bin filters n_vocab todo i ptr word m = Outcome.loaded f v p → f = filters := by
  intro todo
  induction todo with
  | zero =>
    intro i ptr word m f v p h
    simp only [loadVocab, Outcome.loaded.injEq] at h
    exact h.1.symm
  | succ todo ih =>
    intro i ptr word m f v p h
    rw [loadVocab] at h
    split at h
    · exact absurd h (by simp)
    · simp only at h
      split at h
      · exact absurd h (by simp)
      · split at h
        · exact absurd h (by simp)
        · split at h
          · exact absurd h (by simp)
          · exact ih _ _ _ _ _ _ _ h

theorem floatsOf_length (count : Nat) (bytes : List Nat) :
    (floatsOf count bytes).length = count := by
  induction count generalizing bytes with
  | zero => rfl
  | succ c ih => simp [floatsOf, ih]

theorem floatsOf_getElem? (count : Nat) :
    ∀ (bytes : List Nat) (k : Nat), k < count →
      (floatsOf count bytes)[k]? = some (leValue ((bytes.drop (4 * k)).take 4)) := by
  induction count with
  | zero => intro bytes k hk; omega
  | succ c ih =>
    intro bytes k hk
    cases k with
    | zero => simp [floatsOf]
    | succ k =>
      rw [floatsOf, List.getElem?_cons_succ, ih (bytes.drop 4) k (by omega), List.drop_drop]
      congr 4
      omega

/-- C11, as stated, fails: the header `mel_bands = 65536`, `fft_bins = 65536` is accepted
with no weight at all. The 32-bit product of the two fields is 0, so the walk reads no
weight, takes the next 4 bytes for `vocab_size` and ends normally, although
`65536 * 65536` weights are declared; no error is reported. -/
theorem weights_length_counterexample :
    leValue ((wrappedBundle.drop 4).take 4) = 65536
      ∧ leValue ((wrappedBundle.drop 8).take 4) = 65536
      ∧ parseBundle (fun _ => 0) wrappedBundle
          = Outcome.loaded ⟨65536, 65536, []⟩ ⟨0, []⟩ 16
      ∧ ([] : List Nat).length ≠ 65536 * 65536 := by
  decide

/-- C11, amended: when the walk over an array ends normally, `n_mel` and `n_fft` are the two
header fields, the number of weights is their 32-bit product, `n_mel * n_fft` modulo
`2 ^ 32`, which is the product itself whenever that is below `2 ^ 32`, and weight `k` is
the little-endian value of the 4 bytes at offset `12 + 4 * k`. -/
theorem weights_length_is_32bit_product (stack : Nat → Nat) (bin : List Nat)
    (filters : whisper_filters) (vocab : whisper_vocab) (ptr : Nat)
    (h : parseBundle stack bin = Outcome.loaded filters vocab ptr) :
    filters.n_mel = leValue ((bin.drop 4).take 4)
      ∧ filters.n_fft = leValue ((bin.drop 8).take 4)
      ∧ filters.data.length = (filters.n_mel * filters.n_fft) % 2 ^ 32
      ∧ (filters.n_mel * filters.n_fft < 2 ^ 32
          → filters.data.length = filters.n_mel * filters.n_fft)
      ∧ ∀ k, k < filters.data.length →
          filters.data[k]? = some (leValue ((bin.drop (12 + 4 * k)).take 4)) := by
  unfold parseBundle at h
  split at h
  · exact absurd h (by simp)
  · split at h
    · exact absurd h (by simp)
    · split at h
      · exact absurd h (by simp)
      · rename_i melBytes hmel
        split at h
        · exact absurd h (by simp)
        · rename_i fftBytes hfft
          simp only at h
          split at h
          · exact absurd h (by simp)
          · rename_i weightBytes hweights
            split at h
            · exact absurd h (by simp)
            · have hf := loadVocab_filters _ _ _ _ _ _ _ _ _ _ _ h
              have e1 := (readBytes_eq_some _ _ _ _ hmel).1
              have e2 := (readBytes_eq_some _ _ _ _ hfft).1
              have e3 := (readBytes_eq_some _ _ _ _ hweights).1
              subst hf
              simp only
              rw [← e1, ← e2]
              have hlen : (floatsOf ((leValue melBytes * leValue fftBytes) % 2 ^ 32)
                  weightBytes).length = (leValue melBytes * leValue fftBytes) % 2 ^ 32 :=
                floatsOf_length _ _
              refine ⟨rfl, rfl, hlen, ?_, ?_⟩
              · intro hlt
                rw [hlen, Nat.mod_eq_of_lt hlt]
              · intro k hk
                rw [hlen] at hk
                rw [floatsOf_getElem? _ _ k hk, e3, List.drop_take, List.take_take,
                  List.drop_drop]
                have hmin : min 4 ((leValue melBytes * leValue fftBytes) % 2 ^ 32 * 4 - 4 * k)
                    = 4 := by omega
                rw [hmin]

/-- C11, amended, at the bundle with `mel_bands = 1`, `fft_bins = 2`, the weights
`0x3F800000` and `5`, and the one token "A". -/
theorem weights_length_is_32bit_product_witness :
    parseBundle (fun _ => 0) (Bundle.bytes ⟨1, 2, [0x3F800000, 5], 1, [[65]]⟩)
        = Outcome.loaded ⟨1, 2, [0x3F800000, 5]⟩ ⟨1, [(0, [65])]⟩ 29
      ∧ (1 = leValue (((Bundle.bytes ⟨1, 2, [0x3F800000, 5], 1, [[65]]⟩).drop 4).take 4)
        ∧ 2 = leValue (((Bundle.bytes ⟨1, 2, [0x3F800000, 5], 1, [[65]]⟩).drop 8).take 4)
        ∧ [0x3F800000, 5].length = (1 * 2) % 2 ^ 32
        ∧ (1 * 2 < 2 ^ 32 → [0x3F800000, 5].length = 1 * 2)
        ∧ ∀ k, k < [0x3F800000, 5].length →
            [0x3F800000, 5][k]? = some (leValue
              (((Bundle.bytes ⟨1, 2, [0x3F800000, 5], 1, [[65]]⟩).drop (12 + 4 * k)).take 4))) :=
  ⟨by decide,
    weights_length_is_32bit_product (fun _ => 0)
      (Bundle.bytes ⟨1, 2, [0x3F800000, 5], 1, [[65]]⟩)
      ⟨1, 2, [0x3F800000, 5]⟩ ⟨1, [(0, [65])]⟩ 29 (by decide)⟩

/-! ## Theorems: audio input -/

theorem toMonoFloat_length (wav : drwav) : (toMonoFloat wav).length = wav.n := by
  unfold toMonoFloat
  split <;> simp

theorem vectorResize_length (v : List ℚ) (count : Nat) (value : ℚ) :
    (vectorResize v count value).length = count := by
  simp only [vectorResize, List.length_append, List.length_take, List.length_replicate]
  omega

theorem vectorResize_of_le (v : List ℚ) (count : Nat) (value : ℚ) (h : count ≤ v.length) :
    vectorResize v count value = v.take count := by
  simp [vectorResize, Nat.sub_eq_zero_of_le h]

theorem vectorResize_of_ge (v : List ℚ) (count : Nat) (value : ℚ) (h : v.length ≤ count) :
    vectorResize v count value = v ++ List.replicate (count - v.length) value := by
  simp [vectorResize, List.take_of_length_le h]

theorem loadAudio_valid (rate chunk : Nat) (wav : drwav)
    (hch : wav.channels = 1 ∨ wav.channels = 2) (hrate : wav.sampleRate = rate)
    (hbits : wav.bitsPerSample = 16) :
    loadAudio rate chunk (some wav)
      = AudioResult.samples (vectorResize (toMonoFloat wav) (rate * chunk) 0) := by
  have h1 : ¬ (wav.channels ≠ 1 ∧ wav.channels ≠ 2) := by
    intro h
    rcases hch with h2 | h2
    · exact h.1 h2
    · exact h.2 h2
  simp only [loadAudio, h1, hrate, hbits, ne_eq, not_true_eq_false, if_false]

/-- C12: sample normalisation follows the stated formulas. For a clip that passes the format
checks, the buffer before the padding of line 149 has exactly `n` samples; sample `i` is
`s_i / 32768` for a mono clip and `(left_i + right_i) / 65536` for a stereo clip, the sum
being the sum of the two integers `pcm16[2 * i]` and `pcm16[2 * i + 1]`. -/
theorem samples_are_normalised (rate chunk : Nat) (wav : drwav)
    (hch : wav.channels = 1 ∨ wav.channels = 2) (hrate : wav.sampleRate = rate)
    (hbits : wav.bitsPerSample = 16) :
    loadAudio rate chunk (some wav)
        = AudioResult.samples (vectorResize (toMonoFloat wav) (rate * chunk) 0)
      ∧ (toMonoFloat wav).length = wav.n
      ∧ (wav.channels = 1 → ∀ i, i < wav.n →
          (toMonoFloat wav)[i]? = some ((wav.pcm16 i : ℚ) / 32768))
      ∧ (wav.channels = 2 → ∀ i, i < wav.n →
          (toMonoFloat wav)[i]?
            = some (((wav.pcm16 (2 * i) + wav.pcm16 (2 * i + 1) : Int) : ℚ) / 65536)) := by
  refine ⟨loadAudio_valid rate chunk wav hch hrate hbits, toMonoFloat_length wav, ?_, ?_⟩
  · intro h1 i hi
    simp [toMonoFloat, h1, hi, monoSample]
  · intro h2 i hi
    have h1 : wav.channels ≠ 1 := by omega
    simp [toMonoFloat, h1, hi, stereoSample]

/-- C12 at the stereo clip `stereoClip` with the constants 16000 and 30. -/
theorem samples_are_normalised_witness :
    (stereoClip.channels = 1 ∨ stereoClip.channels = 2) ∧ stereoClip.sampleRate = 16000
      ∧ stereoClip.bitsPerSample = 16
      ∧ (loadAudio 16000 30 (some stereoClip)
          = AudioResult.samples (vectorResize (toMonoFloat stereoClip) (16000 * 30) 0)
        ∧ (toMonoFloat stereoClip).length = stereoClip.n
        ∧ (stereoClip.channels = 1 → ∀ i, i < stereoClip.n →
            (toMonoFloat stereoClip)[i]? = some ((stereoClip.pcm16 i : ℚ) / 32768))
        ∧ (stereoClip.channels = 2 → ∀ i, i < stereoClip.n →
            (toMonoFloat stereoClip)[i]?
              = some (((stereoClip.pcm16 (2 * i) + stereoClip.pcm16 (2 * i + 1) : Int) : ℚ)
                  / 65536))) :=
  ⟨by decide, by decide, by decide,
    samples_are_normalised 16000 30 stereoClip (by decide) (by decide) (by decide)⟩

/-- C13: a short clip is padded with exact zeros. For a clip that passes the format checks
and has fewer frames than the window `W = WHISPER_SAMPLE_RATE * WHISPER_CHUNK_SIZE` (none at
all included), no `return` is taken, the buffer handed on has length `W`, its first `n`
samples are the normalised samples and every sample from index `n` on is 0. -/
theorem short_clip_is_padded (rate chunk : Nat) (wav : drwav)
    (hch : wav.channels = 1 ∨ wav.channels = 2) (hrate : wav.sampleRate = rate)
    (hbits : wav.bitsPerSample = 16) (hshort : wav.n < rate * chunk) :
    ∃ pcmf32, loadAudio rate chunk (some wav) = AudioResult.samples pcmf32
      ∧ pcmf32.length = rate * chunk
      ∧ pcmf32.take wav.n = toMonoFloat wav
      ∧ ∀ i, wav.n ≤ i → i < rate * chunk → pcmf32[i]? = some 0 := by
  have hlen := toMonoFloat_length wav
  refine ⟨_, loadAudio_valid rate chunk wav hch hrate hbits, vectorResize_length _ _ _, ?_, ?_⟩
  · rw [vectorResize_of_ge _ _ _ (by omega), ← hlen, List.take_left]
  · intro i hi hiW
    rw [vectorResize_of_ge _ _ _ (by omega), List.getElem?_append_right (by omega),
      List.getElem?_replicate]
    rw [if_pos (by omega)]

/-- C13 at the mono clip `monoClip` of three frames with the constants 16000 and 30. -/
theorem short_clip_is_padded_witness :
    (monoClip.channels = 1 ∨ monoClip.channels = 2) ∧ monoClip.sampleRate = 16000
      ∧ monoClip.bitsPerSample = 16 ∧ monoClip.n < 16000 * 30
      ∧ ∃ pcmf32, loadAudio 16000 30 (some monoClip) = AudioResult.samples pcmf32
          ∧ pcmf32.length = 16000 * 30
          ∧ pcmf32.take monoClip.n = toMonoFloat monoClip
          ∧ ∀ i, monoClip.n ≤ i → i < 16000 * 30 → pcmf32[i]? = some 0 :=
  ⟨by decide, by decide, by decide, by decide,
    short_clip_is_padded 16000 30 monoClip (by decide) (by decide) (by decide) (by decide)⟩

/-- C14, as stated, fails: with the constants 16000 and 30 the window is 480000 samples, and
the silent mono clip of 480001 frames is handed on as a buffer of 480000 samples; the call
`pcmf32.resize(480000, 0)` drops its last sample. -/
theorem long_clip_counterexample :
    (longClip.channels = 1 ∨ longClip.channels = 2) ∧ longClip.sampleRate = 16000
      ∧ longClip.bitsPerSample = 16 ∧ longClip.n = 480001 ∧ 16000 * 30 ≤ longClip.n
      ∧ loadAudio 16000 30 (some longClip)
          = AudioResult.samples (vectorResize (toMonoFloat longClip) 480000 0)
      ∧ (vectorResize (toMonoFloat longClip) 480000 0).length = 480000
      ∧ (vectorResize (toMonoFloat longClip) 480000 0).length ≠ longClip.n := by
  have hlen := vectorResize_length (toMonoFloat longClip) 480000 0
  refine ⟨by decide, by decide, by decide, rfl, by decide,
    loadAudio_valid 16000 30 longClip (by decide) rfl rfl, hlen, ?_⟩
  rw [hlen]
  decide

/-- C14, amended: a long clip is cut to the window. For a clip that passes the format checks
and has at least `W = WHISPER_SAMPLE_RATE * WHISPER_CHUNK_SIZE` frames, the buffer handed on
has length `W` and holds the first `W` normalised samples, unchanged. -/
theorem long_clip_is_cut_to_window (rate chunk : Nat) (wav : drwav)
    (hch : wav.channels = 1 ∨ wav.channels = 2) (hrate : wav.sampleRate = rate)
    (hbits : wav.bitsPerSample = 16) (hlong : rate * chunk ≤ wav.n) :
    ∃ pcmf32, loadAudio rate chunk (some wav) = AudioResult.samples pcmf32
      ∧ pcmf32.length = rate * chunk
      ∧ pcmf32 = (toMonoFloat wav).take (rate * chunk)
      ∧ ∀ i, i < rate * chunk → pcmf32[i]? = (toMonoFloat wav)[i]? := by
  have hlen := toMonoFloat_length wav
  have hcut := vectorResize_of_le (toMonoFloat wav) (rate * chunk) 0 (by omega)
  refine ⟨_, loadAudio_valid rate chunk wav hch hrate hbits, vectorResize_length _ _ _,
    hcut, ?_⟩
  intro i hi
  rw [hcut, List.getElem?_take_of_lt hi]

/-- C14, amended, at the clip `longClip` of 480001 frames with the constants 16000 and 30. -/
theorem long_clip_is_cut_to_window_witness :
    (longClip.channels = 1 ∨ longClip.channels = 2) ∧ longClip.sampleRate = 16000
      ∧ longClip.bitsPerSample = 16 ∧ 16000 * 30 ≤ longClip.n
      ∧ ∃ pcmf32, loadAudio 16000 30 (some longClip) = AudioResult.samples pcmf32
          ∧ pcmf32.length = 16000 * 30
          ∧ pcmf32 = (toMonoFloat longClip).take (16000 * 30)
          ∧ ∀ i, i < 16000 * 30 → pcmf32[i]? = (toMonoFloat longClip)[i]? :=
  ⟨by decide, by decide, by decide, by decide,
    long_clip_is_cut_to_window 16000 30 longClip (by decide) (by decide) (by decide)
      (by decide)⟩

/-- Every value the conversion computes from 16-bit samples is an integer of magnitude at
most `2 ^ 16` over `2 ^ 16`, a number that binary32 holds exactly. -/
theorem samples_are_dyadic (s l r : Int) (hs1 : -32768 ≤ s) (hs2 : s ≤ 32767)
    (hl1 : -32768 ≤ l) (hl2 : l ≤ 32767) (hr1 : -32768 ≤ r) (hr2 : r ≤ 32767) :
    (∃ k : Int, |k| ≤ 65536 ∧ monoSample s = (k : ℚ) / 65536)
      ∧ (∃ k : Int, |k| ≤ 65536 ∧ stereoSample l r = (k : ℚ) / 65536) := by
  refine ⟨⟨2 * s, abs_le.2 ⟨by omega, by omega⟩, ?_⟩,
    ⟨l + r, abs_le.2 ⟨by omega, by omega⟩, rfl⟩⟩
  unfold monoSample
  push_cast
  ring

theorem monoSample_range (s : Int) (h1 : -32768 ≤ s) (h2 : s ≤ 32767) :
    -1 ≤ monoSample s ∧ monoSample s ≤ 1 := by
  have a1 : (-32768 : ℚ) ≤ (s : ℚ) := by exact_mod_cast h1
  have a2 : (s : ℚ) ≤ 32767 := by exact_mod_cast h2
  unfold monoSample
  constructor
  · rw [le_div_iff₀ (by norm_num)]
    linarith
  · rw [div_le_iff₀ (by norm_num)]
    linarith

theorem stereoSample_range (l r : Int) (hl1 : -32768 ≤ l) (hl2 : l ≤ 32767)
    (hr1 : -32768 ≤ r) (hr2 : r ≤ 32767) :
    -1 ≤ stereoSample l r ∧ stereoSample l r ≤ 1 := by
  have a1 : (-65536 : ℚ) ≤ ((l + r : Int) : ℚ) := by
    have : (-65536 : Int) ≤ l + r := by omega
    exact_mod_cast this
  have a2 : ((l + r : Int) : ℚ) ≤ 65534 := by
    have : l + r ≤ (65534 : Int) := by omega
    exact_mod_cast this
  unfold stereoSample
  constructor
  · rw [le_div_iff₀ (by norm_num)]
    linarith
  · rw [div_le_iff₀ (by norm_num)]
    linarith

/-- C16: every sample handed to the feature extractor lies in `[-1, 1]`. For a clip that
passes the format checks and whose samples are 16-bit signed integers, each sample of the
buffer, padding zeros included, is at least -1 and at most 1. -/
theorem samples_in_unit_range (rate chunk : Nat) (wav : drwav)
    (hch : wav.channels = 1 ∨ wav.channels = 2) (hrate : wav.sampleRate = rate)
    (hbits : wav.bitsPerSample = 16)
    (h16 : ∀ j, -32768 ≤ wav.pcm16 j ∧ wav.pcm16 j ≤ 32767) :
    ∃ pcmf32, loadAudio rate chunk (some wav) = AudioResult.samples pcmf32
      ∧ ∀ x ∈ pcmf32, -1 ≤ x ∧ x ≤ 1 := by
  refine ⟨_, loadAudio_valid rate chunk wav hch hrate hbits, ?_⟩
  intro x hx
  unfold vectorResize at hx
  rcases List.mem_append.1 hx with h | h
  · have hm := List.mem_of_mem_take h
    unfold toMonoFloat at hm
    split at hm
    · obtain ⟨i, _, rfl⟩ := List.mem_map.1 hm
      exact monoSample_range _ (h16 i).1 (h16 i).2
    · obtain ⟨i, _, rfl⟩ := List.mem_map.1 hm
      exact stereoSample_range _ _ (h16 _).1 (h16 _).2 (h16 _).1 (h16 _).2
  · have := (List.mem_replicate.1 h).2
    subst this
    constructor <;> norm_num

/-- C16 at the stereo clip `stereoClip`, whose first frame is `(32767, 32767)`. -/
theorem samples_in_unit_range_witness :
    (stereoClip.channels = 1 ∨ stereoClip.channels = 2) ∧ stereoClip.sampleRate = 16000
      ∧ stereoClip.bitsPerSample = 16
      ∧ (∀ j, -32768 ≤ stereoClip.pcm16 j ∧ stereoClip.pcm16 j ≤ 32767)
      ∧ ∃ pcmf32, loadAudio 16000 30 (some stereoClip) = AudioResult.samples pcmf32
          ∧ ∀ x ∈ pcmf32, -1 ≤ x ∧ x ≤ 1 :=
  have h16 : ∀ j, -32768 ≤ stereoClip.pcm16 j ∧ stereoClip.pcm16 j ≤ 32767 := by
    intro j
    unfold stereoClip
    simp only
    split_ifs <;> decide
  ⟨by decide, by decide, by decide, h16,
    samples_in_unit_range 16000 30 stereoClip (by decide) (by decide) (by decide) h16⟩

/-- C17: the stereo downmix is a true average. The value computed for a stereo frame,
`(l + r) / 65536`, is `(l + r) / 2 / 32768` and is the mean of the two mono values
`l / 32768` and `r / 32768`, as rational numbers. -/
theorem stereo_downmix_is_average (l r : Int) :
    stereoSample l r = ((l : ℚ) + (r : ℚ)) / 65536
      ∧ stereoSample l r = ((l : ℚ) + (r : ℚ)) / 2 / 32768
      ∧ stereoSample l r = (monoSample l + monoSample r) / 2 := by
  unfold stereoSample monoSample
  refine ⟨?_, ?_, ?_⟩
  · push_cast
    ring
  · push_cast
    ring
  · push_cast
    ring

/-! ## Theorems: format checks and exit statuses -/

/-- C15: the format checks reject exactly the unsupported formats. For a file that opens,
loading ends with one of the format statuses 4, 5, 6 if and only if the channel count is
neither 1 nor 2, or the sample rate is not `WHISPER_SAMPLE_RATE`, or the bit depth is not
16. In a run with an audio argument that fails in this way, no sample buffer is handed to
the feature extractor, `Invoke` is not called and no text is printed. -/
theorem format_checks_reject_exactly (rate chunk : Nat) (env : Env) (wav : drwav)
    (hargc : env.argc = 3) (hwav : env.wav = some wav) :
    ((∃ status, loadAudio rate chunk (some wav) = AudioResult.failed status
          ∧ (status = 4 ∨ status = 5 ∨ status = 6))
        ↔ ((wav.channels ≠ 1 ∧ wav.channels ≠ 2) ∨ wav.sampleRate ≠ rate
            ∨ wav.bitsPerSample ≠ 16))
      ∧ ((∀ pcmf32, loadAudio rate chunk (some wav) ≠ AudioResult.samples pcmf32)
        ↔ ((wav.channels ≠ 1 ∧ wav.channels ≠ 2) ∨ wav.sampleRate ≠ rate
            ∨ wav.bitsPerSample ≠ 16))
      ∧ (((wav.channels ≠ 1 ∧ wav.channels ≠ 2) ∨ wav.sampleRate ≠ rate
            ∨ wav.bitsPerSample ≠ 16) →
          (main rate chunk env).melInput = none ∧ (main rate chunk env).invoked = false
            ∧ (main rate chunk env).text = none) := by
  by_cases h1 : wav.channels ≠ 1 ∧ wav.channels ≠ 2
  · have hl : loadAudio rate chunk (some wav) = AudioResult.failed 4 := by
      simp only [loadAudio]
      rw [if_pos h1]
    refine ⟨⟨fun _ => Or.inl h1, fun _ => ⟨4, hl, Or.inl rfl⟩⟩,
      ⟨fun _ => Or.inl h1, fun _ pcmf32 => by rw [hl]; simp⟩, ?_⟩
    intro _
    unfold main
    rw [hwav, hl]
    split_ifs <;> (try split) <;> simp_all
  · by_cases h2 : wav.sampleRate ≠ rate
    · have hl : loadAudio rate chunk (some wav) = AudioResult.failed 5 := by
        simp only [loadAudio]
        rw [if_neg h1, if_pos h2]
      refine ⟨⟨fun _ => Or.inr (Or.inl h2), fun _ => ⟨5, hl, Or.inr (Or.inl rfl)⟩⟩,
        ⟨fun _ => Or.inr (Or.inl h2), fun _ pcmf32 => by rw [hl]; simp⟩, ?_⟩
      intro _
      unfold main
      rw [hwav, hl]
      split_ifs <;> (try split) <;> simp_all
    · by_cases h3 : wav.bitsPerSample ≠ 16
      · have hl : loadAudio rate chunk (some wav) = AudioResult.failed 6 := by
          simp only [loadAudio]
          rw [if_neg h1, if_neg h2, if_pos h3]
        refine ⟨⟨fun _ => Or.inr (Or.inr h3), fun _ => ⟨6, hl, Or.inr (Or.inr rfl)⟩⟩,
          ⟨fun _ => Or.inr (Or.inr h3), fun _ pcmf32 => by rw [hl]; simp⟩, ?_⟩
        intro _
        unfold main
        rw [hwav, hl]
        split_ifs <;> (try split) <;> simp_all
      · have hl : loadAudio rate chunk (some wav)
            = AudioResult.samples (vectorResize (toMonoFloat wav) (rate * chunk) 0) := by
          simp only [loadAudio]
          rw [if_neg h1, if_neg h2, if_neg h3]
        have hno : ¬ ((wav.channels ≠ 1 ∧ wav.channels ≠ 2) ∨ wav.sampleRate ≠ rate
            ∨ wav.bitsPerSample ≠ 16) := by
          intro h
          rcases h with h | h | h
          · exact h1 h
          · exact h2 h
          · exact h3 h
        refine ⟨⟨?_, fun h => absurd h hno⟩, ⟨?_, fun h => absurd h hno⟩,
          fun h => absurd h hno⟩
        · rintro ⟨status, hs, _⟩
          rw [hl] at hs
          exact absurd hs (by simp)
        · intro h
          exact absurd hl (h _)

/-- C15 at a run with the three-channel clip `threeChannelClip` and the constants 16000 and
30. -/
theorem format_checks_reject_exactly_witness :
    (sampleEnv 3 (some threeChannelClip) true).argc = 3
      ∧ (sampleEnv 3 (some threeChannelClip) true).wav = some threeChannelClip
      ∧ ((threeChannelClip.channels ≠ 1 ∧ threeChannelClip.channels ≠ 2)
          ∨ threeChannelClip.sampleRate ≠ 16000 ∨ threeChannelClip.bitsPerSample ≠ 16)
      ∧ (main 16000 30 (sampleEnv 3 (some threeChannelClip) true)).melInput = none
      ∧ (main 16000 30 (sampleEnv 3 (some threeChannelClip) true)).invoked = false
      ∧ (main 16000 30 (sampleEnv 3 (some threeChannelClip) true)).text = none :=
  ⟨rfl, rfl, Or.inl (by decide),
    (format_checks_reject_exactly 16000 30 (sampleEnv 3 (some threeChannelClip) true)
      threeChannelClip rfl rfl).2.2 (Or.inl (by decide))⟩

theorem readBytes_take (bin : List Nat) (k ptr len : Nat) (h : ptr + len ≤ k) :
    readBytes (bin.take k) ptr len = readBytes bin ptr len := by
  unfold readBytes
  by_cases hb : ptr + len ≤ bin.length
  · have hk : ptr + len ≤ (bin.take k).length := by
      rw [List.length_take]
      omega
    rw [if_pos hb, if_pos hk, List.drop_take, List.take_take]
    have hmin : min len (k - ptr) = len := by omega
    rw [hmin]
  · have hk : ¬ ptr + len ≤ (bin.take k).length := by
      rw [List.length_take]
      omega
    rw [if_neg hb, if_neg hk]

theorem readBytes_take_none (bin : List Nat) (k ptr len : Nat) (h : k < ptr + len) :
    readBytes (bin.take k) ptr len = none := by
  unfold readBytes
  have hk : ¬ ptr + len ≤ (bin.take k).length := by
    rw [List.length_take]
    omega
  rw [if_neg hk]

theorem loadVocab_cut_short (filters : whisper_filters) (n_vocab : Int)
    (entries : List (List Nat)) :
    ∀ (pre : List Nat) (k i : Nat) (word : List Nat) (m : List (Int × List Nat)),
      (∀ w ∈ entries, w.length ≤ 255) → pre.length ≤ k →
      k < pre.length + (recordBytes entries).length →
      ∃ ptr len,
        loadVocab ((pre ++ recordBytes entries).take k) filters n_vocab entries.length i
            pre.length word m = Outcome.readPastEnd ptr len
          ∧ ptr ≤ k ∧ k < ptr + len := by
  induction entries with
  | nil =>
    intro pre k i word m _ h1 h2
    simp [recordBytes] at h2
    omega
  | cons w ws ih =>
    intro pre k i word m hlen h1 h2
    have hw : w.length ≤ 255 := hlen w (List.mem_cons_self _ _)
    have hws : ∀ x ∈ ws, x.length ≤ 255 := fun x hx => hlen x (List.mem_cons_of_mem _ hx)
    have hrec : recordBytes (w :: ws) = u32le w.length ++ w ++ recordBytes ws := by
      simp [recordBytes, List.append_assoc]
    have hreclen : (recordBytes (w :: ws)).length
        = 4 + w.length + (recordBytes ws).length := by
      rw [hrec]
      simp only [List.length_append, u32le_length]
    have hv : leValue (u32le w.length) = w.length := leValue_u32le _ (by omega)
    rw [List.length_cons, loadVocab]
    by_cases c1 : k < pre.length + 4
    · refine ⟨pre.length, 4, ?_, h1, c1⟩
      rw [readBytes_take_none _ _ _ _ c1]
    · have r1 : readBytes ((pre ++ recordBytes (w :: ws)).take k) pre.length 4
          = some (u32le w.length) := by
        rw [readBytes_take _ _ _ _ (by omega)]
        have e : pre ++ recordBytes (w :: ws)
            = pre ++ u32le w.length ++ (w ++ recordBytes ws) := by
          rw [hrec]; simp only [List.append_assoc]
        rw [e]
        exact readBytes_append pre (u32le w.length) _ _ _ rfl rfl
      by_cases c2 : k < pre.length + 4 + w.length
      · refine ⟨pre.length + 4, w.length, ?_, by omega, c2⟩
        simp only [r1, hv]
        rw [readBytes_take_none _ _ _ _ c2]
      · have r2 : readBytes ((pre ++ recordBytes (w :: ws)).take k) (pre.length + 4) w.length
            = some w := by
          rw [readBytes_take _ _ _ _ (by omega)]
          have e : pre ++ recordBytes (w :: ws)
              = (pre ++ u32le w.length) ++ w ++ recordBytes ws := by
            rw [hrec]; simp only [List.append_assoc]
          rw [e]
          exact readBytes_append (pre ++ u32le w.length) w _ _ _
            (by simp [u32le_length]) rfl
        have hbin : pre ++ recordBytes (w :: ws)
            = (pre ++ u32le w.length ++ w) ++ recordBytes ws := by
          rw [hrec]; simp only [List.append_assoc]
        have hptr : pre.length + 4 + w.length = (pre ++ u32le w.length ++ w).length := by
          simp only [List.length_append, u32le_length]
        simp only [r1, hv, r2]
        rw [if_neg (by omega), if_neg (by omega), hbin, hptr]
        exact ih (pre ++ u32le w.length ++ w) k (i + 1) _ _ hws (by omega) (by omega)

theorem bundle_header_reads (b : Bundle) (hv : b.Valid) :
    readBytes b.bytes 0 4 = some (u32le 0x74666C74)
      ∧ readBytes b.bytes 4 4 = some (u32le b.mel_bands)
      ∧ readBytes b.bytes 8 4 = some (u32le b.fft_bins)
      ∧ readBytes b.bytes 12 ((b.mel_bands * b.fft_bins) % 2 ^ 32 * 4)
          = some ((b.weights.map u32le).flatten)
      ∧ readBytes b.bytes (12 + (b.mel_bands * b.fft_bins) % 2 ^ 32 * 4) 4
          = some (u32le (b.vocab_size % 2 ^ 32).toNat) := by
  have hW : ((b.weights.map u32le).flatten).length
      = (b.mel_bands * b.fft_bins) % 2 ^ 32 * 4 := by
    rw [flatten_u32le_length, hv.2.2.1]
  refine ⟨?_, ?_, ?_, ?_, ?_⟩
  · have e : b.bytes = [] ++ u32le 0x74666C74 ++ (u32le b.mel_bands
        ++ u32le b.fft_bins ++ (b.weights.map u32le).flatten
        ++ u32le (b.vocab_size % 2 ^ 32).toNat ++ recordBytes b.entries) := by
      simp only [Bundle.bytes, List.append_assoc, List.nil_append]
    rw [e]
    exact readBytes_append [] _ _ _ _ rfl rfl
  · have e : b.bytes = u32le 0x74666C74 ++ u32le b.mel_bands
        ++ (u32le b.fft_bins ++ (b.weights.map u32le).flatten
        ++ u32le (b.vocab_size % 2 ^ 32).toNat ++ recordBytes b.entries) := by
      simp only [Bundle.bytes, List.append_assoc]
    rw [e]
    exact readBytes_append _ _ _ _ _ rfl rfl
  · have e : b.bytes = (u32le 0x74666C74 ++ u32le b.mel_bands)
        ++ u32le b.fft_bins ++ ((b.weights.map u32le).flatten
        ++ u32le (b.vocab_size % 2 ^ 32).toNat ++ recordBytes b.entries) := by
      simp only [Bundle.bytes, List.append_assoc]
    rw [e]
    exact readBytes_append _ _ _ _ _ rfl rfl
  · have e : b.bytes = (u32le 0x74666C74 ++ u32le b.mel_bands
        ++ u32le b.fft_bins) ++ (b.weights.map u32le).flatten
        ++ (u32le (b.vocab_size % 2 ^ 32).toNat ++ recordBytes b.entries) := by
      simp only [Bundle.bytes, List.append_assoc]
    rw [e]
    exact readBytes_append _ _ _ _ _ rfl hW.symm
  · have e : b.bytes = (u32le 0x74666C74 ++ u32le b.mel_bands
        ++ u32le b.fft_bins ++ (b.weights.map u32le).flatten)
        ++ u32le (b.vocab_size % 2 ^ 32).toNat ++ recordBytes b.entries := by
      simp only [Bundle.bytes, List.append_assoc]
    rw [e]
    refine readBytes_append _ _ _ _ _ ?_ rfl
    simp only [List.length_append, u32le_length, hW]

/-- C7, amended: a truncated bundle is not detected. When the array is a valid bundle cut
short after at least its 4 bytes of magic (so some declared size reaches behind the end of
the array, and no entry declares more than 255 bytes), the walk takes no error branch: it
goes on to the first field that does not fit and copies it, a read that begins at an offset
`ptr` inside the array or at its end and runs to `ptr + len`, behind the end of the array. -/
theorem parseBundle_cut_short_reads_past_end (stack : Nat → Nat) (b : Bundle) (k : Nat)
    (hv : b.Valid) (h4 : 4 ≤ k) (hk : k < b.bytes.length) :
    (b.bytes.take k).length = k
      ∧ leValue ((b.bytes.take k).take 4) = 0x74666C74
      ∧ parseBundle stack (b.bytes.take k) ≠ Outcome.badMagic
      ∧ ∃ ptr len,
          parseBundle stack (b.bytes.take k) = Outcome.readPastEnd ptr len
            ∧ ptr ≤ (b.bytes.take k).length ∧ (b.bytes.take k).length < ptr + len := by
  have hlenk : (b.bytes.take k).length = k := by
    rw [List.length_take]
    omega
  obtain ⟨r0, r4, r8, r12, rV⟩ := bundle_header_reads b hv
  have hmagic : leValue (u32le 0x74666C74) = 0x74666C74 := by decide
  have hW : ((b.weights.map u32le).flatten).length
      = (b.mel_bands * b.fft_bins) % 2 ^ 32 * 4 := by
    rw [flatten_u32le_length, hv.2.2.1]
  have hlenb : b.bytes.length
      = 12 + (b.mel_bands * b.fft_bins) % 2 ^ 32 * 4 + 4
          + (recordBytes b.entries).length := by
    simp only [Bundle.bytes, List.length_append, u32le_length, hW]
  have t0 : readBytes (b.bytes.take k) 0 4 = some (u32le 0x74666C74) := by
    rw [readBytes_take _ _ _ _ (by omega), r0]
  have hmag : leValue ((b.bytes.take k).take 4) = 0x74666C74 := by
    have h := (readBytes_eq_some _ _ _ _ t0).1
    rw [List.drop_zero] at h
    rw [← h, hmagic]
  have hmain : ∃ ptr len,
      parseBundle stack (b.bytes.take k) = Outcome.readPastEnd ptr len
        ∧ ptr ≤ k ∧ k < ptr + len := by
    by_cases c1 : k < 8
    · refine ⟨4, 4, ?_, h4, c1⟩
      unfold parseBundle
      simp only [t0, hmagic, readBytes_take_none b.bytes k 4 4 (by omega), ne_eq, not_true_eq_false,
        if_false]
    · have t4 : readBytes (b.bytes.take k) 4 4 = some (u32le b.mel_bands) := by
        rw [readBytes_take _ _ _ _ (by omega), r4]
      by_cases c2 : k < 12
      · refine ⟨8, 4, ?_, by omega, c2⟩
        unfold parseBundle
        simp only [t0, hmagic, t4, readBytes_take_none b.bytes k 8 4 (by omega), ne_eq,
          not_true_eq_false, if_false]
      · have t8 : readBytes (b.bytes.take k) 8 4 = some (u32le b.fft_bins) := by
          rw [readBytes_take _ _ _ _ (by omega), r8]
        by_cases c3 : k < 12 + (b.mel_bands * b.fft_bins) % 2 ^ 32 * 4
        · refine ⟨12, (b.mel_bands * b.fft_bins) % 2 ^ 32 * 4, ?_, by omega, c3⟩
          unfold parseBundle
          simp only [t0, hmagic, t4, t8, leValue_u32le _ hv.1, leValue_u32le _ hv.2.1,
            readBytes_take_none b.bytes k 12 ((b.mel_bands * b.fft_bins) % 2 ^ 32 * 4) c3,
            ne_eq, not_true_eq_false, if_false]
        · have t12 : readBytes (b.bytes.take k) 12 ((b.mel_bands * b.fft_bins) % 2 ^ 32 * 4)
              = some ((b.weights.map u32le).flatten) := by
            rw [readBytes_take _ _ _ _ (by omega), r12]
          by_cases c4 : k < 12 + (b.mel_bands * b.fft_bins) % 2 ^ 32 * 4 + 4
          · refine ⟨12 + (b.mel_bands * b.fft_bins) % 2 ^ 32 * 4, 4, ?_, by omega, c4⟩
            unfold parseBundle
            simp only [t0, hmagic, t4, t8, leValue_u32le _ hv.1, leValue_u32le _ hv.2.1,
              t12, readBytes_take_none b.bytes k
                (12 + (b.mel_bands * b.fft_bins) % 2 ^ 32 * 4) 4 c4,
              ne_eq, not_true_eq_false, if_false]
          · have tV : readBytes (b.bytes.take k)
                (12 + (b.mel_bands * b.fft_bins) % 2 ^ 32 * 4) 4
                = some (u32le (b.vocab_size % 2 ^ 32).toNat) := by
              rw [readBytes_take _ _ _ _ (by omega), rV]
            have hpre : (u32le 0x74666C74 ++ u32le b.mel_bands ++ u32le b.fft_bins
                ++ (b.weights.map u32le).flatten
                ++ u32le (b.vocab_size % 2 ^ 32).toNat).length
                = 12 + (b.mel_bands * b.fft_bins) % 2 ^ 32 * 4 + 4 := by
              simp only [List.length_append, u32le_length, hW]
            have hloop := loadVocab_cut_short
              ⟨b.mel_bands, b.fft_bins,
                floatsOf ((b.mel_bands * b.fft_bins) % 2 ^ 32) ((b.weights.map u32le).flatten)⟩
              b.vocab_size b.entries
              (u32le 0x74666C74 ++ u32le b.mel_bands ++ u32le b.fft_bins
                ++ (b.weights.map u32le).flatten ++ u32le (b.vocab_size % 2 ^ 32).toNat)
              k 0 ((List.range 256).map stack) [] hv.2.2.2.2.2.2.1
              (by rw [hpre]; omega) (by rw [hpre]; omega)
            have hbin : u32le 0x74666C74 ++ u32le b.mel_bands ++ u32le b.fft_bins
                ++ (b.weights.map u32le).flatten ++ u32le (b.vocab_size % 2 ^ 32).toNat
                ++ recordBytes b.entries = b.bytes := rfl
            rw [hbin, hpre, hv.2.2.2.2.2.1] at hloop
            unfold parseBundle
            simp only [t0, hmagic, t4, t8, leValue_u32le _ hv.1, leValue_u32le _ hv.2.1,
              t12, tV, toInt32_pattern _ hv.2.2.2.2.1.1 hv.2.2.2.2.1.2, ne_eq,
              not_true_eq_false, if_false]
            exact hloop
  obtain ⟨ptr, len, hp, hle, hlt⟩ := hmain
  refine ⟨hlenk, hmag, ?_, ptr, len, hp, ?_, ?_⟩
  · rw [hp]
    simp
  · rw [hlenk]
    exact hle
  · rw [hlenk]
    exact hlt

/-- C7, amended, at `sampleBundle` cut after 21 of its 27 bytes, in the middle of the entry
"Hi": the 2 bytes of the entry are read at offset 20. -/
theorem parseBundle_cut_short_reads_past_end_witness :
    sampleBundle.Valid ∧ 4 ≤ 21 ∧ 21 < sampleBundle.bytes.length
      ∧ parseBundle (fun _ => 0) (sampleBundle.bytes.take 21) = Outcome.readPastEnd 20 2
      ∧ ((sampleBundle.bytes.take 21).length = 21
        ∧ leValue ((sampleBundle.bytes.take 21).take 4) = 0x74666C74
        ∧ parseBundle (fun _ => 0) (sampleBundle.bytes.take 21) ≠ Outcome.badMagic
        ∧ ∃ ptr len,
            parseBundle (fun _ => 0) (sampleBundle.bytes.take 21)
                = Outcome.readPastEnd ptr len
              ∧ ptr ≤ (sampleBundle.bytes.take 21).length
              ∧ (sampleBundle.bytes.take 21).length < ptr + len) :=
  ⟨by decide, by decide, by decide, by decide,
    parseBundle_cut_short_reads_past_end (fun _ => 0) sampleBundle 21 (by decide)
      (by decide) (by decide)⟩

end Minimal

